import Mathlib

/-!
# Verification of the mediaorganizer pipeline

A shallow embedding of the core of the `mediaorganizer` repository:

* `pkg/media/types.go` — media types, destination directory and filename
  computation (`GetDestinationPath`, `GetNewFilename`, `DetermineMediaType`);
* `pkg/processor/scanner.go` — the streaming pipeline's organize stage
  (journal insert, lazy hashing with backfill, global dedup, sequence
  numbering, destination assignment), the walk-stage filter, the resume
  re-queue step and the transfer stage (`executeMoveJob`, `copyFileImpl`,
  `moveFileImpl`);
* the journal (`pkg/db`, whose implementation is not part of the sources;
  its operations are modelled from the specification's query contracts and
  are consistent with the unit tests shipped with the repository).

Strings are modelled as `List Char` (`Str` below), Go's `int`/`int64`
counters and sizes as `Nat`.  File contents are modelled as the byte
string itself; the xxHash digest is modelled as an injective function of
the content (the dedup arguments only use that identical content yields
identical hash, which is the spec's own reading).
-/

namespace MediaOrganizer



/-- Strings of the embedded program, as lists of characters. -/
abbrev Str := List Char

/-! ## Go standard library primitives (string / path helpers) -/

/-- `strings.ToLower` restricted to ASCII (all extensions and literals used
by the program are ASCII). -/
def goToLower (s : Str) : Str := s.map Char.toLower

/-- Scanning loop of Go's `filepath.Ext`: walk the path backwards, stop at a
path separator, return the suffix starting at the final dot.  The input is
the reversed path, `acc` the already-rebuilt suffix. -/
def goExtAux : List Char → List Char → Option (List Char)
  | [], _ => none
  | c :: rest, acc =>
    if c = '/' then none
    else if c = '.' then some ('.' :: acc)
    else goExtAux rest (c :: acc)

/-- Go `filepath.Ext`: the suffix beginning at the final dot in the final
element of `path`, empty if there is no dot. -/
def goExt (p : Str) : Str :=
  match goExtAux p.reverse [] with
  | none => []
  | some l => l

/-- Go `strings.TrimPrefix`. -/
def goTrimPrefix (s pre : Str) : Str :=
  if pre.isPrefixOf s then s.drop pre.length else s

/-- Go `strings.TrimSuffix`. -/
def goTrimSuffix (s suf : Str) : Str :=
  if suf.isSuffixOf s then s.take (s.length - suf.length) else s

/-- Go `filepath.Base` (for the slash-separated paths the scanner works on). -/
def goBase (p : Str) : Str :=
  if p = [] then ['.']
  else
    let q := (p.reverse.dropWhile (· = '/')).reverse
    if q = [] then ['/']
    else (q.reverse.takeWhile (· ≠ '/')).reverse

/-- Go `filepath.Join` on already-clean components: empty components are
ignored and the rest are joined with a single separator (`filepath.Clean`
is the identity on the clean component paths produced by the program). -/
def goJoin (parts : List Str) : Str :=
  match parts.filter (· ≠ []) with
  | [] => []
  | p :: ps => ps.foldl (fun acc q => acc ++ '/' :: q) p

/-- Go `filepath.IsAbs`. -/
def goIsAbs (p : Str) : Bool :=
  match p with
  | [] => false
  | c :: _ => c = '/'

/-- Go `strings.ReplaceAll` with the one-character pattern `" "` used by
`GetNewFilename`. -/
def goReplaceSpaces (s repl : Str) : Str :=
  s.flatMap fun c => if c = ' ' then repl else [c]

/-- Zero-padded decimal rendering: `fmt.Sprintf` with a `%0wd` verb (also
covers Go's `time.Format` numeric fields, which zero-pad the same way). -/
def padNum (w n : Nat) : Str :=
  let s := Nat.toDigits 10 n
  List.replicate (w - s.length) '0' ++ s

/-! ## `pkg/media/types.go` -/

inductive MediaType where
  | image
  | video
  | audio
  | unknown
deriving DecidableEq, Repr

/-- `string(mediaType)` — the Go string value backing the `MediaType` constants. -/
def MediaType.str : MediaType → Str
  | .image => "image".toList
  | .video => "video".toList
  | .audio => "audio".toList
  | .unknown => "unknown".toList

/-- Go `time.Time` restricted to the calendar fields the program formats. -/
structure GoTime where
  year : Nat
  month : Nat
  day : Nat
  hour : Nat
  minute : Nat
  second : Nat
deriving DecidableEq, Repr

/-- `t.Format("2006")`. -/
def GoTime.fmtYear (t : GoTime) : Str := padNum 4 t.year

/-- `t.Format("01")`. -/
def GoTime.fmtMonth (t : GoTime) : Str := padNum 2 t.month

/-- `t.Format("02")`. -/
def GoTime.fmtDay (t : GoTime) : Str := padNum 2 t.day

/-- `t.Format("20060102-150405")` — the timestamp prefix of generated names. -/
def GoTime.fmtStamp (t : GoTime) : Str :=
  padNum 4 t.year ++ padNum 2 t.month ++ padNum 2 t.day ++
    '-' :: (padNum 2 t.hour ++ padNum 2 t.minute ++ padNum 2 t.second)

/-- `media.MediaFile`. -/
structure MediaFile where
  sourcePath : Str
  type : MediaType
  creationTime : GoTime
  largerDimension : Nat
  fileSize : Nat
  hash : Str
  originalName : Str
deriving DecidableEq, Repr

/-- `MediaFile.GetExtension`. -/
def MediaFile.getExtension (m : MediaFile) : Str :=
  goTrimPrefix (goToLower (goExt m.sourcePath)) ['.']

/-- The date substructure `YYYY/YYYY-MM/YYYY-MM-DD` built in
`GetDestinationPath`. -/
def dateStructure (t : GoTime) : Str :=
  goJoin [t.fmtYear, t.fmtYear ++ '-' :: t.fmtMonth,
    t.fmtYear ++ '-' :: t.fmtMonth ++ '-' :: t.fmtDay]

/-- `MediaFile.GetDestinationPath`. -/
def MediaFile.getDestinationPath (m : MediaFile) (baseDir extensionDir : Str)
    (isDuplicate : Bool) (scheme duplicatesDir : Str) : Str :=
  let ext := m.getExtension
  let ds := dateStructure m.creationTime
  if extensionDir ≠ [] then
    if isDuplicate ∧ goIsAbs duplicatesDir then goJoin [duplicatesDir, ds]
    else if isDuplicate then goJoin [extensionDir, duplicatesDir, ds]
    else goJoin [extensionDir, ds]
  else if scheme = "date_first".toList then
    if isDuplicate ∧ goIsAbs duplicatesDir then goJoin [duplicatesDir, ds, ext]
    else if isDuplicate then goJoin [baseDir, duplicatesDir, ds, ext]
    else goJoin [baseDir, ds, ext]
  else
    if isDuplicate ∧ goIsAbs duplicatesDir then goJoin [duplicatesDir, ext, ds]
    else if isDuplicate then goJoin [baseDir, ext, duplicatesDir, ds]
    else goJoin [baseDir, ext, ds]

/-- The `for { fileExt := filepath.Ext(...); ... TrimSuffix ... }` loop in
`GetNewFilename`, with an explicit iteration bound: each pass removes the
non-empty suffix `filepath.Ext` returns, so the name shrinks every
iteration (the `next.length < name.length` guard makes this structural)
and `name.length` passes always suffice. -/
def stripExtensionsAux : Nat → Str → Str
  | 0, name => name
  | fuel + 1, name =>
    if goExt name = [] then name
    else
      let next := goTrimSuffix name (goExt name)
      if next.length < name.length then stripExtensionsAux fuel next else next

/-- The extension-removal loop of `GetNewFilename`. -/
def stripExtensions (name : Str) : Str :=
  stripExtensionsAux name.length name

/-- `MediaFile.GetNewFilename`. -/
def MediaFile.getNewFilename (m : MediaFile) (scheme spaceReplacement : Str)
    (noOriginalName : Bool) : Str :=
  let ext := goToLower (goExt m.sourcePath)
  let timestamp := m.creationTime.fmtStamp
  let origNameWithoutExt :=
    if noOriginalName then []
    else
      let n := stripExtensions m.originalName
      if spaceReplacement ≠ [] ∧ spaceReplacement ≠ [' '] then
        goReplaceSpaces n spaceReplacement
      else n
  if scheme = "date_first".toList then
    let dimension :=
      if 0 < m.largerDimension ∧ m.type = .image then
        '_' :: Nat.toDigits 10 m.largerDimension
      else []
    let namePart :=
      if origNameWithoutExt ≠ [] ∧ ¬ timestamp.isPrefixOf origNameWithoutExt then
        '_' :: origNameWithoutExt
      else []
    timestamp ++ dimension ++ namePart ++ ext
  else
    let dimension :=
      if 0 < m.largerDimension then '_' :: Nat.toDigits 10 m.largerDimension
      else []
    let namePart :=
      if origNameWithoutExt ≠ [] ∧ ¬ timestamp.isPrefixOf origNameWithoutExt then
        ' ' :: '(' :: (origNameWithoutExt ++ [')'])
      else []
    timestamp ++ dimension ++ namePart ++ ext

/-- `media.DetermineMediaType`. -/
def determineMediaType (filePath : Str) : MediaType :=
  let ext := goToLower (goExt filePath)
  if (([".jpg", ".jpeg", ".png", ".gif", ".bmp", ".webp", ".tiff", ".tif",
        ".nef", ".arw", ".cr2", ".cr3", ".dng", ".heic", ".raf"] :
        List String).map String.toList).contains ext then .image
  else if (([".mp4", ".avi", ".mov", ".mkv", ".wmv", ".flv", ".webm", ".m4v",
        ".mpeg", ".mpg", ".3gp", ".asf", ".m2v", ".vob", ".m2t", ".mts"] :
        List String).map String.toList).contains ext then .video
  else if (([".mp3", ".wav", ".aac", ".ogg", ".flac", ".m4a", ".wma", ".amr"] :
        List String).map String.toList).contains ext then .audio
  else .unknown

/-! ## Filesystem model

The organize stage only reads files (to hash them) and checks existence.
A filesystem maps a path to the file's byte content, modelled as a `Str`;
a missing path is `none`.  The xxHash digest of a content `c` is modelled
as the injective, never-empty string `'h' :: c`: the dedup logic only uses
that equal contents have equal digests (which is the specification's own
premise) and that a computed digest is distinguishable from the journal's
empty "no hash yet" marker. -/

abbrev FS := Str → Option Str

/-- Modelled digest of a file content. -/
def hashOf (c : Str) : Str := 'h' :: c

/-- `media.ComputeFileHash`: read the file, digest its bytes; fails when
the file cannot be read. -/
def computeFileHash (fs : FS) (p : Str) : Option Str :=
  (fs p).map hashOf

/-! ## The journal (`pkg/db`)

The implementation `pkg/db/journal.go` is not among the sources; every
operation below is modelled from the specification, §4.1 (operation
contracts) and §3 (record shape), and agrees with the repository's
`journal_test.go`.
A journal is the list of its records in insertion order; row ids are
assigned sequentially, so a record's id is its position. -/

inductive Status where
  | pending
  | completed
  | failed
  | dryRun
  | destIndex
deriving DecidableEq, Repr

/-- `db.FileRecord`.  The database stores the creation time as a rendered
`"2006-01-02 15:04:05"` string; the model keeps the `GoTime` value, whose
rendering it is. -/
structure FileRecord where
  id : Nat
  sourcePath : Str
  fileSize : Nat
  mediaType : MediaType
  extension : Str
  creationTime : GoTime
  largerDimension : Nat
  originalName : Str
  timestampKey : Str
  hash : Str
  destPath : Str
  seqNum : Nat
  isDuplicate : Bool
  status : Status
  errorMessage : Str
deriving DecidableEq, Repr

abbrev Journal := List FileRecord

/-- Modelled from the spec: `insert(record)` — new identity, or
`AlreadyExists` if the source path is already present on a
non-`dest_index` record. -/
def insertFile (J : Journal) (r : FileRecord) : Except Unit (Journal × Nat) :=
  if J.any (fun x => x.status ≠ .destIndex ∧ x.sourcePath = r.sourcePath) then
    .error ()
  else
    .ok (J ++ [{ r with id := J.length }], J.length)

/-- Modelled from the spec: `countBySize(size)`, reflecting all records
inserted so far including `dest_index` rows. -/
def countByFileSize (J : Journal) (size : Nat) : Nat :=
  (J.filter (fun r => r.fileSize = size)).length

/-- Modelled from the spec: `countByTimestampKey(key)`. -/
def countByTimestampKey (J : Journal) (key : Str) : Nat :=
  (J.filter (fun r => r.timestampKey = key)).length

/-- Modelled from the spec: `findByHash(hash)` — all non-empty-hash
matches; the empty hash returns an empty result. -/
def getByHash (J : Journal) (h : Str) : List FileRecord :=
  if h = [] then [] else J.filter (fun r => r.hash = h)

/-- Modelled from the spec: `findUnhashedBySize(size)`. -/
def getUnhashedByFileSize (J : Journal) (size : Nat) : List FileRecord :=
  J.filter (fun r => r.fileSize = size ∧ r.hash = [])

/-- Modelled from the spec: `updateHash(id, hash)`. -/
def updateHash (J : Journal) (id : Nat) (h : Str) : Journal :=
  J.map (fun r => if r.id = id then { r with hash := h } else r)

/-- Modelled from the spec: `updateDestination(id, path, seq, isDuplicate)`
sets the tuple together. -/
def updateDestPath (J : Journal) (id : Nat) (p : Str) (seq : Nat)
    (dup : Bool) : Journal :=
  J.map (fun r =>
    if r.id = id then { r with destPath := p, seqNum := seq, isDuplicate := dup }
    else r)

/-- Modelled from the spec: `updateStatus(id, status, errorMessage)`. -/
def updateStatus (J : Journal) (id : Nat) (st : Status) (msg : Str) : Journal :=
  J.map (fun r =>
    if r.id = id then { r with status := st, errorMessage := msg } else r)

/-- Modelled from the spec: `completedSourcePaths()` — paths with status
`completed` or `dry_run`. -/
def getCompletedSourcePaths (J : Journal) : List Str :=
  (J.filter (fun r => r.status = .completed ∨ r.status = .dryRun)).map
    (·.sourcePath)

/-- Modelled from the spec: `pendingWithDestination()` — `pending` records
with a non-empty destination. -/
def getPendingFiles (J : Journal) : List FileRecord :=
  J.filter (fun r => r.status = .pending ∧ r.destPath ≠ [])

/-- Modelled from the spec: `resetFailed()` — bulk `failed → pending`,
clearing the error message. -/
def resetFailed (J : Journal) : Journal :=
  J.map (fun r =>
    if r.status = .failed then
      { r with status := .pending, errorMessage := [] }
    else r)

/-- Modelled from the spec: `bulkInsertDestinationEntries` inserts a
`dest_index` placeholder row per destination file with insert-if-absent
semantics; such rows carry only path, size, type and extension. -/
structure DestFile where
  path : Str
  size : Nat
  mediaType : MediaType
  extension : Str
deriving DecidableEq, Repr

/-- A `dest_index` placeholder record for a pre-indexed destination file. -/
def destRecord (e : DestFile) (id : Nat) : FileRecord :=
  { id := id, sourcePath := e.path, fileSize := e.size,
    mediaType := e.mediaType, extension := e.extension,
    creationTime := ⟨0, 0, 0, 0, 0, 0⟩, largerDimension := 0,
    originalName := [], timestampKey := [], hash := [], destPath := [],
    seqNum := 0, isDuplicate := false, status := .destIndex,
    errorMessage := [] }

/-- Modelled from the spec: the journal produced by the pre-indexing phase
(`preIndexDestinations` bulk-inserting into a fresh journal). -/
def mkDestJournal (entries : List DestFile) : Journal :=
  entries.foldl
    (fun J e =>
      if J.any (fun r => r.sourcePath = e.path) then J
      else J ++ [destRecord e J.length])
    []

/-! ## The organize stage (`MediaScanner.Scan`, stage 3) -/

/-- The configuration fields of `MediaScanner` that the organize stage
reads.  The Go maps `destinationDirs`/`extensionDirs` are modelled as
total functions returning the zero value `""` for missing keys. -/
structure ScannerConfig where
  destination : Str
  destinationDirs : Str → Str
  extensionDirs : Str → Str
  scheme : Str
  spaceReplacement : Str
  noOriginalName : Bool
  duplicatesDir : Str

/-- `moveJob`. -/
structure MoveJob where
  recordID : Nat
  file : MediaFile
  destPath : Str
  isDuplicate : Bool
deriving DecidableEq, Repr

/-- `fmt.Sprintf("%03d", num)` (`formatSequence`). -/
def formatSequence (num : Nat) : Str := padNum 3 num

/-- `MediaScanner.computeDestPath`. -/
def computeDestPath (cfg : ScannerConfig) (file : MediaFile)
    (isDuplicate : Bool) (seqNum : Nat) : Str :=
  let ext := goTrimPrefix (goExt file.sourcePath) ['.']
  let baseDestDir :=
    if cfg.scheme = "date_first".toList ∧ cfg.destination ≠ [] then
      cfg.destination
    else cfg.destinationDirs file.type.str
  if ¬ (cfg.scheme = "date_first".toList ∧ cfg.destination ≠ []) ∧
      baseDestDir = [] then []
  else
    let extensionDir := if ext ≠ [] then cfg.extensionDirs ext else []
    let fileDir := file.getDestinationPath baseDestDir extensionDir
      isDuplicate cfg.scheme cfg.duplicatesDir
    let fileName := file.getNewFilename cfg.scheme cfg.spaceReplacement
      cfg.noOriginalName
    let fileName :=
      if 1 < seqNum then
        let fileExt := goExt fileName
        (fileName.take (fileName.length - fileExt.length)) ++
          '_' :: (formatSequence seqNum ++ fileExt)
      else fileName
    goJoin [fileDir, fileName]

/-- The timestamp key built in the organize loop:
`CreationTime.Format("20060102-150405") + "_" + string(Type) + "_" +
filepath.Ext(SourcePath)`. -/
def mkTsKey (f : MediaFile) : Str :=
  f.creationTime.fmtStamp ++ '_' :: (f.type.str ++ '_' :: goExt f.sourcePath)

/-- The fresh `pending` record the organize loop inserts for a new file. -/
def mkRecord (f : MediaFile) : FileRecord :=
  { id := 0, sourcePath := f.sourcePath, fileSize := f.fileSize,
    mediaType := f.type, extension := f.getExtension,
    creationTime := f.creationTime, largerDimension := f.largerDimension,
    originalName := f.originalName, timestampKey := mkTsKey f, hash := [],
    destPath := [], seqNum := 0, isDuplicate := false, status := .pending,
    errorMessage := [] }

/-- The path a backfill candidate is hashed from: its source path, or its
recorded destination when the source no longer exists
(`os.Stat`/`os.IsNotExist` check in the backfill loop). -/
def fallbackPath (fs : FS) (r : FileRecord) : Str :=
  if fs r.sourcePath = none ∧ r.destPath ≠ [] then r.destPath else r.sourcePath

/-- One backfill iteration: hash the candidate from `fallbackPath`; a
candidate whose file cannot be read is skipped. -/
def backfillStep (fs : FS) (acc : Journal) (ur : FileRecord) : Journal :=
  match computeFileHash fs (fallbackPath fs ur) with
  | none => acc
  | some bh => updateHash acc ur.id bh

/-- The organize stage's work on the freshly inserted record `id` in
journal `J1` (`MediaScanner.Scan`, stage 3 loop body after `InsertFile`):
lazily hash when another record shares the file size, backfill unhashed
same-size records, decide the duplicate flag from the hash matches, derive
the sequence number from the timestamp-key count, and persist the assigned
destination.  Returns the updated journal and the emitted transfer job. -/
def organizeStep (fs : FS) (cfg : ScannerConfig) (J1 : Journal) (id : Nat)
    (f : MediaFile) : Journal × Option MoveJob :=
    let sizeCount := countByFileSize J1 f.fileSize
    let hashed :=
      if 2 ≤ sizeCount then
        let step1 :=
          match computeFileHash fs f.sourcePath with
          | none => (J1, ([] : Str))
          | some h => (updateHash J1 id h, h)
        let J3 := (getUnhashedByFileSize step1.1 f.fileSize).foldl
          (backfillStep fs) step1.1
        (J3, step1.2)
      else (J1, ([] : Str))
    let J3 := hashed.1
    let fileHash := hashed.2
    let isDup := decide (fileHash ≠ []) &&
      (getByHash J3 fileHash).any (fun m => decide (m.id ≠ id))
    let tsCount := countByTimestampKey J3 (mkTsKey f)
    let seqNum := if 1 < tsCount then tsCount else 0
    let destPath := computeDestPath cfg f isDup seqNum
    let J4 := updateDestPath J3 id destPath seqNum isDup
    (J4,
     some { recordID := id, file := f, destPath := destPath,
            isDuplicate := isDup })

/-- The organize stage's processing of one metadata-extracted file: insert
the pending record (an already-journaled path is skipped without error),
then run `organizeStep`. -/
def processOne (fs : FS) (cfg : ScannerConfig) (J : Journal)
    (f : MediaFile) : Journal × Option MoveJob :=
  match insertFile J (mkRecord f) with
  | .error _ => (J, none)
  | .ok (J1, id) => organizeStep fs cfg J1 id f

/-- The organize stage over a stream of metadata-extracted files. -/
def runOrganize (fs : FS) (cfg : ScannerConfig) (J : Journal)
    (files : List MediaFile) : Journal :=
  files.foldl (fun acc f => (processOne fs cfg acc f).1) J

/-- `recordToMediaFile` (scanner.go): convert a journal record back into a
`MediaFile` for re-queuing. -/
def recordToMediaFile (rec : FileRecord) : MediaFile :=
  { sourcePath := rec.sourcePath, type := rec.mediaType,
    creationTime := rec.creationTime,
    largerDimension := rec.largerDimension, fileSize := rec.fileSize,
    hash := rec.hash, originalName := rec.originalName }

/-! ## Infrastructure: row identifiers are list positions

Rows are assigned sequential identities, so in every reachable journal a
record's id equals its position; all update operations address rows by id.
-/

/-- Journal well-formedness: the record stored at position `i` has id `i`. -/
def IdsOk (J : Journal) : Prop :=
  ∀ (i : Nat) (r : FileRecord), J[i]? = some r → r.id = i

/-! ## Infrastructure: the backfill loop as a simultaneous update -/

/-- Record-level effect of one backfill iteration on its target row. -/
def bfApply (fs : FS) (u : FileRecord) : FileRecord :=
  match computeFileHash fs (fallbackPath fs u) with
  | none => u
  | some bh => { u with hash := bh }

/-! ## Symbolic execution of one organize-stage step -/

/-- The record a fully processed new file leaves in the journal. -/
def newRecord (f : MediaFile) (id : Nat) (h dp : Str) (seq : Nat)
    (dup : Bool) : FileRecord :=
  { id := id, sourcePath := f.sourcePath, fileSize := f.fileSize,
    mediaType := f.type, extension := f.getExtension,
    creationTime := f.creationTime, largerDimension := f.largerDimension,
    originalName := f.originalName, timestampKey := mkTsKey f, hash := h,
    destPath := dp, seqNum := seq, isDuplicate := dup, status := .pending,
    errorMessage := [] }

/-- The sequence number the organize stage assigns to a new file given the
journal contents at its turn. -/
def seqOf (J : Journal) (f : MediaFile) : Nat :=
  let k := (J.filter (fun r => r.timestampKey = mkTsKey f)).length + 1
  if 1 < k then k else 0

/-- The simultaneous-update function the backfill loop amounts to. -/
def bfMap (fs : FS) (size : Nat) (x : FileRecord) : FileRecord :=
  if x.fileSize = size ∧ x.hash = [] then bfApply fs x else x

/-- The journal after the backfill loop for size class `size`. -/
def backfilled (fs : FS) (size : Nat) (J : Journal) : Journal :=
  J.map (bfMap fs size)

/-- The duplicate flag the organize stage derives for a new file of
content `c` once hashing has happened. -/
def dupAny (fs : FS) (J : Journal) (f : MediaFile) (c : Str) : Bool :=
  (backfilled fs f.fileSize J).any (fun m => m.hash = hashOf c)

structure Inv (fs : FS) (cfg : ScannerConfig) (J : Journal) : Prop where
  ids : IdsOk J
  consistent : ∀ r ∈ J, ∃ c, fs r.sourcePath = some c ∧
    r.fileSize = c.length ∧ (r.hash = [] ∨ r.hash = hashOf c)
  uniform : ∀ r ∈ J, ∀ r' ∈ J, r.fileSize = r'.fileSize →
    (r.hash = [] ↔ r'.hash = [])
  destFlag : ∀ r ∈ J, r.status = Status.destIndex →
    r.isDuplicate = false ∧ r.timestampKey = []
  destFirst : ∀ r ∈ J, ∀ r' ∈ J, r.status = Status.destIndex →
    r'.status ≠ Status.destIndex → r.id < r'.id
  dupIff : ∀ r ∈ J, r.status ≠ Status.destIndex →
    (r.isDuplicate = true ↔
      ∃ r' ∈ J, r'.id < r.id ∧ fs r'.sourcePath = fs r.sourcePath)
  seqChar : ∀ r ∈ J, r.status ≠ Status.destIndex →
    r.seqNum =
      (if 1 < (J.filter (fun x =>
          x.timestampKey = r.timestampKey ∧ x.id ≤ r.id)).length then
        (J.filter (fun x =>
          x.timestampKey = r.timestampKey ∧ x.id ≤ r.id)).length
      else 0)
  destChar : ∀ r ∈ J, r.status ≠ Status.destIndex →
    r.destPath =
      computeDestPath cfg (recordToMediaFile r) r.isDuplicate r.seqNum

/-- Filesystem consistency of the extract-stage output fed to organize:
each file is readable and its recorded size is its content's byte count
(`ExtractFileMetadata` records `os.Stat` sizes). -/
def filesOk (fs : FS) (files : List MediaFile) : Bool :=
  files.all fun f =>
    match fs f.sourcePath with
    | some c => f.fileSize == c.length
    | none => false

/-- Filesystem consistency of the pre-indexed destination entries (their
sizes come from `os.Stat` during the destination walk). -/
def entriesOk (fs : FS) (entries : List DestFile) : Bool :=
  entries.all fun e =>
    match fs e.path with
    | some c => e.size == c.length
    | none => false

/-- The intermediate shape of the journal during destination pre-indexing. -/
def DestInv (fs : FS) (J : Journal) : Prop :=
  IdsOk J ∧ ∀ r ∈ J, r.status = Status.destIndex ∧ r.hash = [] ∧
    r.isDuplicate = false ∧ r.timestampKey = [] ∧
    ∃ c, fs r.sourcePath = some c ∧ r.fileSize = c.length

/-- The records sharing a content hash (`findByHash`'s view of the final
journal). -/
def hashGroup (J : Journal) (h : Str) : List FileRecord :=
  J.filter (fun r => r.hash = h)

/-- The records sharing a grouping key (creation timestamp + media type +
extension). -/
def keyGroup (J : Journal) (k : Str) : List FileRecord :=
  J.filter (fun r => r.timestampKey = k)

/-! ## Concrete inputs for witnesses and counterexamples -/

/-- A concrete scanner configuration: extension-first scheme, images to
`/dest`, relative duplicates directory. -/
def exCfg : ScannerConfig :=
  { destination := [],
    destinationDirs := fun t => if t = "image".toList then "/dest".toList
      else [],
    extensionDirs := fun _ => [], scheme := "extension_first".toList,
    spaceReplacement := "_".toList, noOriginalName := false,
    duplicatesDir := "duplicates".toList }

/-- A concrete filesystem with three identical source images and two
identical pre-organized destination copies. -/
def exFs : FS := fun p =>
  if p = "/s/a.jpg".toList then some "AAAA".toList
  else if p = "/s/b.jpg".toList then some "AAAA".toList
  else if p = "/d/x1.jpg".toList then some "AAAA".toList
  else if p = "/d/x2.jpg".toList then some "AAAA".toList
  else none

def exTime : GoTime := ⟨2024, 1, 15, 10, 30, 0⟩

def exFileA : MediaFile :=
  { sourcePath := "/s/a.jpg".toList, type := .image, creationTime := exTime,
    largerDimension := 0, fileSize := 4, hash := [],
    originalName := "a.jpg".toList }

def exFileB : MediaFile :=
  { sourcePath := "/s/b.jpg".toList, type := .image, creationTime := exTime,
    largerDimension := 0, fileSize := 4, hash := [],
    originalName := "b.jpg".toList }

def exDest1 : DestFile := ⟨"/d/x1.jpg".toList, 4, .image, "jpg".toList⟩

def exDest2 : DestFile := ⟨"/d/x2.jpg".toList, 4, .image, "jpg".toList⟩

/-- The concrete image of the specification's example scenario:
`IMG_1.jpg`, 4000 px larger dimension, created 2024-01-15 10:30:00. -/
def exImg : MediaFile :=
  { sourcePath := "/src/IMG_1.jpg".toList, type := .image,
    creationTime := exTime, largerDimension := 4000, fileSize := 123,
    hash := [], originalName := "IMG_1.jpg".toList }

/-! ## Claim C7: the walk-stage filter -/

/-- A directory entry as `filepath.Walk` presents it to the callback: the
path and the `os.FileInfo` facts the callback could consult (the info
comes from `lstat`, so a symbolic link reports `isSymlink` and is not a
directory). -/
structure WalkEntry where
  path : Str
  isDir : Bool
  isSymlink : Bool
deriving DecidableEq, Repr

/-- The walk-stage callback of `MediaScanner.Scan` (stage 1), as the
predicate deciding whether an entry's path is emitted to the extract
stage.  `completed` is the membership test of `completedSourcePaths()`
(constantly false outside resume mode). -/
def walkEmits (completed : Str → Bool) (e : WalkEntry) : Bool :=
  if e.isDir then false
  else if ("._".toList).isPrefixOf (goBase e.path) then false
  else if (".mediaorganizer.db".toList).isSuffixOf e.path ∨
      (".mediaorganizer.db-wal".toList).isSuffixOf e.path ∨
      (".mediaorganizer.db-shm".toList).isSuffixOf e.path then false
  else if determineMediaType e.path = .unknown then false
  else if completed e.path then false
  else true

/-! ## The transfer stage (`executeMoveJob`, `copyFileImpl`, `moveFileImpl`)

Files now carry the metadata the transfer code manipulates: byte content,
permission mode and modification time.  `os.Create` truncates or creates
the destination — regardless of whether it already exists — stamping the
current time `now`; `os.Rename` replaces any existing destination and
preserves metadata; `os.Chmod` copies the permission bits only.
Directory creation (`os.MkdirAll`, which precedes every transfer) and the
cross-device copy+delete fallback of `moveFileImpl` are not distinguished:
the rename is modelled as same-filesystem. -/

structure FileData where
  data : Str
  mode : Nat
  mtime : Nat
deriving DecidableEq, Repr

abbrev FS2 := Str → Option FileData

/-- Point update of the transfer-stage filesystem. -/
def fsWrite (fs : FS2) (p : Str) (d : Option FileData) : FS2 :=
  fun q => if q = p then d else fs q

/-- `copyFileImpl` (scanner.go): open source, create/truncate destination,
copy bytes, sync, then chmod the destination to the source's mode.  The
destination's modification time is the time of the copy. -/
def copyFileImpl (fs : FS2) (now : Nat) (src dst : Str) :
    Except Str FS2 :=
  match fs src with
  | none => .error ("open ".toList ++ src)
  | some d => .ok (fsWrite fs dst (some ⟨d.data, d.mode, now⟩))

/-- `moveFileImpl` (scanner.go): `os.Rename`, which replaces any existing
destination and carries the file's metadata along. -/
def moveFileImpl (fs : FS2) (src dst : Str) : Except Str FS2 :=
  match fs src with
  | none => .error ("rename ".toList ++ src)
  | some d => .ok (fsWrite (fsWrite fs src none) dst (some d))

/-- The transfer-mode switches of `MediaScanner` read by `executeMoveJob`. -/
structure MoveConfig where
  dryRun : Bool
  copyFiles : Bool
deriving DecidableEq, Repr

/-- `MediaScanner.executeMoveJob`: dry-run marks `dry_run`; otherwise the
destination directory is ensured and the file is copied or moved, the
record ending `completed`, or `failed` with the error message captured. -/
def executeMoveJob (mc : MoveConfig) (fs : FS2) (now : Nat) (J : Journal)
    (job : MoveJob) : Journal × FS2 :=
  if mc.dryRun then (updateStatus J job.recordID .dryRun [], fs)
  else
    match (if mc.copyFiles then
        copyFileImpl fs now job.file.sourcePath job.destPath
      else moveFileImpl fs job.file.sourcePath job.destPath) with
    | .error msg => (updateStatus J job.recordID .failed msg, fs)
    | .ok fs' => (updateStatus J job.recordID .completed [], fs')

/-! ## Claim C3 -/

/-- A one-record journal holding the pending record of a transfer job. -/
def exJob : MoveJob :=
  { recordID := 0, file := exFileA, destPath := "/dest/old.jpg".toList,
    isDuplicate := false }

def exJournal3 : Journal :=
  [{ id := 0, sourcePath := "/s/a.jpg".toList, fileSize := 4,
     mediaType := .image, extension := "jpg".toList, creationTime := exTime,
     largerDimension := 0, originalName := "a.jpg".toList,
     timestampKey := mkTsKey exFileA, hash := [],
     destPath := "/dest/old.jpg".toList, seqNum := 0, isDuplicate := false,
     status := .pending, errorMessage := [] }]

/-- The transfer filesystem for the collision scenario: the source exists
and a DIFFERENT file already sits at the computed destination. -/
def exFs3 : FS2 := fun p =>
  if p = "/s/a.jpg".toList then some ⟨"AAAA".toList, 420, 5⟩
  else if p = "/dest/old.jpg".toList then some ⟨"OLD".toList, 400, 1⟩
  else none

/-! ## Claim C8 -/

def exFs8 : FS2 := fun p =>
  if p = "/s/a.jpg".toList then some ⟨"AAAA".toList, 420, 5⟩
  else none

/-! ## Claim C5 -/

/-- The resume requeue loop body (`MediaScanner.Scan`, stage 3, first
loop): `ex` is `os.Stat` success.  A record whose source is gone is marked
`completed` when a recorded destination exists on disk, `failed` with
"source file missing on resume" otherwise; a record whose source exists is
re-queued as a transfer job with its stored destination and duplicate
flag, the journal untouched. -/
def requeueOne (ex : Str → Bool) (J : Journal) (rec : FileRecord) :
    Journal × Option MoveJob :=
  if ex rec.sourcePath = false then
    if rec.destPath ≠ [] ∧ ex rec.destPath = true then
      (updateStatus J rec.id .completed [], none)
    else
      (updateStatus J rec.id .failed
        "source file missing on resume".toList, none)
  else
    (J, some { recordID := rec.id, file := recordToMediaFile rec,
               destPath := rec.destPath, isDuplicate := rec.isDuplicate })

def exRec5 : FileRecord :=
  { id := 0, sourcePath := "/s/a.jpg".toList, fileSize := 4,
    mediaType := .image, extension := "jpg".toList, creationTime := exTime,
    largerDimension := 0, originalName := "a.jpg".toList,
    timestampKey := mkTsKey exFileA, hash := "hAAAA".toList,
    destPath := "/dest/old.jpg".toList, seqNum := 0, isDuplicate := false,
    status := .pending, errorMessage := [] }

def exJournal5 : Journal := [exRec5]

def exEx5 : Str → Bool := fun p => decide (p = "/s/a.jpg".toList)

/-! ## Theorems -/

theorem IdsOk.getElem_self {J : Journal} (h : IdsOk J) {r : FileRecord}
    (hr : r ∈ J) : J[r.id]? = some r := by
  rcases List.mem_iff_getElem?.mp hr with ⟨i, hi⟩
  rw [h i r hi]
  exact hi

theorem IdsOk.id_lt {J : Journal} (h : IdsOk J) {r : FileRecord}
    (hr : r ∈ J) : r.id < J.length := by
  have h1 := h.getElem_self hr
  by_contra hge
  rw [List.getElem?_eq_none (by omega)] at h1
  exact Option.noConfusion h1

theorem IdsOk.append {J : Journal} (h : IdsOk J) {r : FileRecord}
    (hr : r.id = J.length) : IdsOk (J ++ [r]) := by
  intro i x hx
  rcases Nat.lt_or_ge i J.length with hlt | hge
  · rw [List.getElem?_append_left hlt] at hx
    exact h i x hx
  · rw [List.getElem?_append_right hge] at hx
    match hk : i - J.length, hx with
    | 0, hx =>
      simp only [List.getElem?_cons_zero, Option.some.injEq] at hx
      subst hx
      omega
    | k + 1, hx => simp at hx

theorem IdsOk.map {J : Journal} (h : IdsOk J) {g : FileRecord → FileRecord}
    (hg : ∀ r, (g r).id = r.id) : IdsOk (J.map g) := by
  intro i x hx
  rw [List.getElem?_map] at hx
  rcases Option.map_eq_some'.mp hx with ⟨r, hr, hgr⟩
  rw [← hgr, hg r]
  exact h i r hr

theorem IdsOk.map_id_nodup {J : Journal} (h : IdsOk J) :
    (J.map (·.id)).Nodup := by
  rw [List.nodup_iff_getElem?_ne_getElem?]
  intro i j hij hj
  rw [List.length_map] at hj
  have hi' : i < J.length := lt_trans hij hj
  rw [List.getElem?_map, List.getElem?_map]
  have g1 := List.getElem?_eq_getElem hi'
  have g2 := List.getElem?_eq_getElem hj
  rw [g1, g2]
  have e1 := h i _ g1
  have e2 := h j _ g2
  simp only [Option.map_some', ne_eq, Option.some.injEq]
  omega

/-- A generic row update `fun r => if r.id = id then F r else r` applied to
a journal with a freshly appended row of that id only rewrites the new row. -/
theorem updById_append (J : Journal) (r : FileRecord)
    (F : FileRecord → FileRecord) (hfresh : ∀ x ∈ J, x.id ≠ r.id) :
    (J ++ [r]).map (fun x => if x.id = r.id then F x else x) = J ++ [F r] := by
  rw [List.map_append]
  congr 1
  · conv_rhs => rw [← List.map_id J]
    apply List.map_congr_left
    intro a ha
    simp [hfresh a ha]
  · simp

/-- Pointwise description of a row update by id. -/
theorem updById_getElem (J : Journal) (hids : IdsOk J) (id : Nat)
    (F : FileRecord → FileRecord) (i : Nat) :
    (J.map (fun r => if r.id = id then F r else r))[i]? =
      (J[i]?).map (fun r => if i = id then F r else r) := by
  rw [List.getElem?_map]
  cases hJ : J[i]? with
  | none => rfl
  | some r =>
    have : r.id = i := hids i r hJ
    simp only [Option.map_some', this]

theorem bfApply_eq_setHash (fs : FS) (u : FileRecord) :
    bfApply fs u = u ∨ ∃ h, bfApply fs u = { u with hash := h } := by
  unfold bfApply
  cases computeFileHash fs (fallbackPath fs u) with
  | none => exact Or.inl rfl
  | some bh => exact Or.inr ⟨bh, rfl⟩

theorem bfApply_id (fs : FS) (u : FileRecord) : (bfApply fs u).id = u.id := by
  rcases bfApply_eq_setHash fs u with h | ⟨v, h⟩ <;> rw [h]

theorem find?_unique {α : Type} {p : α → Bool} {l : List α} {a : α}
    (ha : a ∈ l) (hpa : p a = true)
    (huniq : ∀ b ∈ l, p b = true → b = a) : l.find? p = some a := by
  induction l with
  | nil => cases ha
  | cons b t ih =>
    by_cases hb : p b = true
    · rw [List.find?_cons_of_pos _ hb, huniq b (List.mem_cons_self b t) hb]
    · rw [List.find?_cons_of_neg _ hb]
      rcases List.mem_cons.mp ha with rfl | hat
      · exact absurd hpa hb
      · exact ih hat (fun x hx hpx => huniq x (List.mem_cons_of_mem b hx) hpx)

/-- The backfill loop `for _, ur := range unhashed { ... UpdateHash ... }`
touches each listed row once; pointwise description of its result. -/
theorem foldl_backfillStep_getElem (fs : FS) :
    ∀ (l : List FileRecord) (J : Journal), IdsOk J →
      (∀ u ∈ l, J[u.id]? = some u) → (l.map (·.id)).Nodup →
      ∀ i, (l.foldl (backfillStep fs) J)[i]? =
        match l.find? (fun u => u.id == i) with
        | some u => some (bfApply fs u)
        | none => J[i]? := by
  intro l
  induction l with
  | nil =>
    intro J _ _ _ i
    simp [List.find?]
  | cons u t ih =>
    intro J hids hmem hnd i
    have hndt : (t.map (·.id)).Nodup := (List.nodup_cons.mp hnd).2
    have hune : ∀ v ∈ t, v.id ≠ u.id := by
      intro v hv
      have hnin := (List.nodup_cons.mp hnd).1
      intro he
      apply hnin
      have hvm : v.id ∈ t.map (fun x => x.id) := List.mem_map_of_mem _ hv
      rwa [he] at hvm
    have huJ : J[u.id]? = some u := hmem u (List.mem_cons_self u t)
    -- the step taken for u
    have hstep : ∀ j, (backfillStep fs J u)[j]? =
        if j = u.id then some (bfApply fs u) else J[j]? := by
      intro j
      unfold backfillStep bfApply
      cases hc : computeFileHash fs (fallbackPath fs u) with
      | none =>
        by_cases hj : j = u.id
        · subst hj; simp [huJ]
        · simp [hj]
      | some bh =>
        unfold updateHash
        rw [updById_getElem J hids u.id _ j]
        by_cases hj : j = u.id
        · subst hj; simp [huJ]
        · simp only [if_neg hj]
          cases J[j]? <;> simp
    have hids' : IdsOk (backfillStep fs J u) := by
      intro j x hx
      rw [hstep j] at hx
      by_cases hj : j = u.id
      · rw [if_pos hj] at hx
        cases hx
        rw [bfApply_id fs u, hids u.id u huJ, hj]
      · rw [if_neg hj] at hx
        exact hids j x hx
    have hmem' : ∀ v ∈ t, (backfillStep fs J u)[v.id]? = some v := by
      intro v hv
      rw [hstep v.id, if_neg (hune v hv)]
      exact hmem v (List.mem_cons_of_mem u hv)
    have := ih (backfillStep fs J u) hids' hmem' hndt i
    rw [List.foldl_cons, this]
    by_cases hi : u.id = i
    · rw [List.find?_cons_of_pos _ (by simpa using hi)]
      have : t.find? (fun v => v.id == i) = none := by
        rw [List.find?_eq_none]
        intro v hv
        simp only [beq_iff_eq]
        rw [← hi]
        exact hune v hv
      rw [this, hstep i, if_pos hi.symm]
    · rw [List.find?_cons_of_neg _ (by simpa using hi)]
      cases ht : t.find? (fun v => v.id == i) with
      | some v => rfl
      | none =>
        rw [hstep i, if_neg (fun he => hi he.symm)]

/-- In the organize loop the list fed to the backfill loop is exactly the
unhashed same-size filter of the ambient journal; the loop is then a
simultaneous per-row update. -/
theorem backfill_eq_map (fs : FS) (J : Journal) (hids : IdsOk J)
    (size : Nat) :
    (getUnhashedByFileSize J size).foldl (backfillStep fs) J =
      J.map (fun x =>
        if x.fileSize = size ∧ x.hash = [] then bfApply fs x else x) := by
  apply List.ext_getElem?_iff.mpr
  intro i
  have hsub : ∀ u ∈ getUnhashedByFileSize J size, u ∈ J := by
    intro u hu
    exact List.mem_of_mem_filter hu
  have hmem : ∀ u ∈ getUnhashedByFileSize J size, J[u.id]? = some u :=
    fun u hu => hids.getElem_self (hsub u hu)
  have hnd : ((getUnhashedByFileSize J size).map (·.id)).Nodup := by
    have hsl : List.Sublist ((getUnhashedByFileSize J size).map (·.id))
        (J.map (·.id)) := (List.filter_sublist J).map (·.id)
    exact hsl.nodup hids.map_id_nodup
  rw [foldl_backfillStep_getElem fs _ J hids hmem hnd i, List.getElem?_map]
  cases hJ : J[i]? with
  | none =>
    have : (getUnhashedByFileSize J size).find? (fun u => u.id == i) = none := by
      rw [List.find?_eq_none]
      intro u hu
      simp only [beq_iff_eq]
      intro he
      have := hids.getElem_self (hsub u hu)
      rw [he, hJ] at this
      exact Option.noConfusion this
    rw [this]
    rfl
  | some x =>
    have hxid : x.id = i := hids i x hJ
    by_cases hpx : x.fileSize = size ∧ x.hash = []
    · have hxin : x ∈ getUnhashedByFileSize J size := by
        unfold getUnhashedByFileSize
        exact List.mem_filter.mpr
          ⟨List.mem_iff_getElem?.mpr ⟨i, hJ⟩, by simpa using hpx⟩
      have : (getUnhashedByFileSize J size).find? (fun u => u.id == i) =
          some x := by
        apply find?_unique hxin (by simpa using hxid)
        intro b hb hbid
        have hbJ := hids.getElem_self (hsub b hb)
        rw [show b.id = i by simpa using hbid, hJ] at hbJ
        exact (Option.some.inj hbJ).symm
      rw [this]
      simp [hpx]
    · have : (getUnhashedByFileSize J size).find? (fun u => u.id == i) =
          none := by
        rw [List.find?_eq_none]
        intro u hu
        simp only [beq_iff_eq]
        intro he
        have hbJ := hids.getElem_self (hsub u hu)
        rw [he, hJ] at hbJ
        have : u = x := (Option.some.inj hbJ).symm
        subst this
        have := List.mem_filter.mp hu
        simp only [decide_eq_true_eq] at this
        exact hpx this.2
      rw [this]
      simp [hpx]

theorem bfMap_shape (fs : FS) (size : Nat) (x : FileRecord) :
    ∃ h', bfMap fs size x = { x with hash := h' } := by
  unfold bfMap
  by_cases hc : x.fileSize = size ∧ x.hash = []
  · rw [if_pos hc]
    rcases bfApply_eq_setHash fs x with h | ⟨v, h⟩
    · exact ⟨x.hash, h⟩
    · exact ⟨v, h⟩
  · exact ⟨x.hash, by rw [if_neg hc]⟩

theorem bfMap_id (fs : FS) (size : Nat) (x : FileRecord) :
    (bfMap fs size x).id = x.id := by
  rcases bfMap_shape fs size x with ⟨h', he⟩
  rw [he]

theorem mem_bfMap_id_lt {J : Journal} (hids : IdsOk J) {fs : FS}
    {size : Nat} {x : FileRecord} (hx : x ∈ J.map (bfMap fs size)) :
    x.id < J.length := by
  rcases List.mem_map.mp hx with ⟨y, hy, hxy⟩
  rw [← hxy, bfMap_id]
  exact hids.id_lt hy

/-- A successful insert appends the pending record with the next id. -/
theorem processOne_eq_organizeStep (fs : FS) (cfg : ScannerConfig)
    (J : Journal) (f : MediaFile)
    (hex : J.any (fun x =>
      x.status ≠ Status.destIndex ∧ x.sourcePath = f.sourcePath) = false) :
    processOne fs cfg J f =
      organizeStep fs cfg (J ++ [newRecord f J.length [] [] 0 false])
        J.length f := by
  have hex' : J.any (fun x => decide (x.status ≠ Status.destIndex ∧
      x.sourcePath = (mkRecord f).sourcePath)) = false := hex
  unfold processOne insertFile
  rw [if_neg (by rw [hex']; exact Bool.false_ne_true)]
  rfl

/-- Organize-stage step when no other journal record shares the new file's
size: no hashing happens, the file is recorded non-duplicate, sequenced by
its timestamp-key count, and its destination is persisted. -/
theorem processOne_quiet (fs : FS) (cfg : ScannerConfig) (J : Journal)
    (f : MediaFile) (hids : IdsOk J)
    (hex : J.any (fun x =>
      x.status ≠ Status.destIndex ∧ x.sourcePath = f.sourcePath) = false)
    (hn : (J.filter (fun r => r.fileSize = f.fileSize)).length = 0) :
    processOne fs cfg J f =
      (J ++ [newRecord f J.length []
          (computeDestPath cfg f false (seqOf J f)) (seqOf J f) false],
       some { recordID := J.length, file := f,
              destPath := computeDestPath cfg f false (seqOf J f),
              isDuplicate := false }) := by
  have hfresh : ∀ x ∈ J, x.id ≠ J.length := fun x hx => by
    have := hids.id_lt hx
    omega
  rw [processOne_eq_organizeStep fs cfg J f hex]
  have hcount : countByFileSize (J ++ [newRecord f J.length [] [] 0 false])
      f.fileSize = 1 := by
    unfold countByFileSize
    rw [List.filter_append]
    simp [hn, newRecord]
  have hts : countByTimestampKey (J ++ [newRecord f J.length [] [] 0 false])
      (mkTsKey f) =
      (J.filter (fun r => r.timestampKey = mkTsKey f)).length + 1 := by
    unfold countByTimestampKey
    rw [List.filter_append]
    simp [newRecord]
  have hupd : updateDestPath (J ++ [newRecord f J.length [] [] 0 false])
      J.length (computeDestPath cfg f false (seqOf J f)) (seqOf J f) false =
      J ++ [newRecord f J.length []
        (computeDestPath cfg f false (seqOf J f)) (seqOf J f) false] := by
    unfold updateDestPath
    have hres := updById_append J (newRecord f J.length [] [] 0 false)
      (fun r =>
        { r with destPath := computeDestPath cfg f false (seqOf J f),
                 seqNum := seqOf J f, isDuplicate := false })
      (by simpa [newRecord] using hfresh)
    simpa [newRecord] using hres
  unfold organizeStep
  rw [hcount]
  simp only [eq_false (show ¬ ((2:Nat) ≤ 1) by omega), if_false]
  rw [hts]
  simp only [seqOf] at hupd ⊢
  simp only [ne_eq, not_true_eq_false, decide_False, Bool.false_and,
    Bool.false_eq_true, if_false, hupd]

theorem backfill_eq_bfMap (fs : FS) (J : Journal) (hids : IdsOk J)
    (size : Nat) :
    (getUnhashedByFileSize J size).foldl (backfillStep fs) J =
      J.map (bfMap fs size) := by
  rw [backfill_eq_map fs J hids size]
  rfl

theorem mem_backfilled_id_lt {J : Journal} (hids : IdsOk J) {fs : FS}
    {size : Nat} {x : FileRecord} (hx : x ∈ backfilled fs size J) :
    x.id < J.length := mem_bfMap_id_lt hids hx

/-- Organize-stage step when some other journal record shares the new
file's size and the new file is readable: the new record is hashed, every
unhashed same-size record is backfilled, the duplicate flag reflects the
hash matches among the other records, and the sequenced destination is
persisted. -/
theorem processOne_trigger (fs : FS) (cfg : ScannerConfig) (J : Journal)
    (f : MediaFile) (c : Str) (hids : IdsOk J)
    (hex : J.any (fun x =>
      x.status ≠ Status.destIndex ∧ x.sourcePath = f.sourcePath) = false)
    (hread : fs f.sourcePath = some c)
    (hn : 0 < (J.filter (fun r => r.fileSize = f.fileSize)).length) :
    processOne fs cfg J f =
      (backfilled fs f.fileSize J ++
         [newRecord f J.length (hashOf c)
           (computeDestPath cfg f (dupAny fs J f c) (seqOf J f))
           (seqOf J f) (dupAny fs J f c)],
       some { recordID := J.length, file := f,
              destPath :=
                computeDestPath cfg f (dupAny fs J f c) (seqOf J f),
              isDuplicate := dupAny fs J f c }) := by
  have hfresh : ∀ x ∈ J, x.id ≠ J.length := fun x hx => by
    have := hids.id_lt hx
    omega
  rw [processOne_eq_organizeStep fs cfg J f hex]
  have hcount : countByFileSize (J ++ [newRecord f J.length [] [] 0 false])
      f.fileSize =
      (J.filter (fun r => r.fileSize = f.fileSize)).length + 1 := by
    unfold countByFileSize
    rw [List.filter_append]
    simp [newRecord]
  have hch : computeFileHash fs f.sourcePath = some (hashOf c) := by
    rw [computeFileHash, hread]
    rfl
  have hupdh : updateHash (J ++ [newRecord f J.length [] [] 0 false])
      J.length (hashOf c) =
      J ++ [newRecord f J.length (hashOf c) [] 0 false] := by
    unfold updateHash
    have hres := updById_append J (newRecord f J.length [] [] 0 false)
      (fun r => { r with hash := hashOf c })
      (by simpa [newRecord] using hfresh)
    simpa [newRecord] using hres
  have hids2 : IdsOk (J ++ [newRecord f J.length (hashOf c) [] 0 false]) :=
    hids.append (by simp [newRecord])
  have hbf : (getUnhashedByFileSize
        (J ++ [newRecord f J.length (hashOf c) [] 0 false]) f.fileSize).foldl
        (backfillStep fs)
        (J ++ [newRecord f J.length (hashOf c) [] 0 false]) =
      backfilled fs f.fileSize J ++
        [newRecord f J.length (hashOf c) [] 0 false] := by
    rw [backfill_eq_bfMap fs _ hids2 f.fileSize, List.map_append]
    unfold backfilled
    congr 1
    simp [bfMap, newRecord, hashOf]
  have hdup : (decide ((hashOf c) ≠ []) &&
      (getByHash (backfilled fs f.fileSize J ++
          [newRecord f J.length (hashOf c) [] 0 false]) (hashOf c)).any
        (fun m => decide (m.id ≠ J.length))) = dupAny fs J f c := by
    have hne : hashOf c ≠ [] := by simp [hashOf]
    rw [Bool.eq_iff_iff]
    simp only [Bool.and_eq_true, decide_eq_true_eq, List.any_eq_true]
    unfold getByHash
    rw [if_neg hne, List.filter_append]
    constructor
    · rintro ⟨-, m, hm, hmne⟩
      rcases List.mem_append.mp hm with hml | hmr
      · rcases List.mem_filter.mp hml with ⟨hmB, hmq⟩
        unfold dupAny
        rw [List.any_eq_true]
        exact ⟨m, hmB, hmq⟩
      · exfalso
        have : m = newRecord f J.length (hashOf c) [] 0 false := by
          have := List.mem_filter.mp hmr
          simpa using this.1
        rw [this] at hmne
        simp [newRecord] at hmne
    · intro hd
      unfold dupAny at hd
      rw [List.any_eq_true] at hd
      rcases hd with ⟨m, hmB, hmq⟩
      refine ⟨hne, m, ?_, ?_⟩
      · exact List.mem_append.mpr (Or.inl (List.mem_filter.mpr ⟨hmB, hmq⟩))
      · have hlt := mem_backfilled_id_lt hids hmB
        have hne2 : m.id ≠ J.length := by omega
        simpa using hne2
  have hts : countByTimestampKey (backfilled fs f.fileSize J ++
      [newRecord f J.length (hashOf c) [] 0 false]) (mkTsKey f) =
      (J.filter (fun r => r.timestampKey = mkTsKey f)).length + 1 := by
    unfold countByTimestampKey backfilled
    rw [List.filter_append, List.filter_map]
    have hcg : J.filter ((fun r => decide (r.timestampKey = mkTsKey f)) ∘
        bfMap fs f.fileSize) =
        J.filter (fun r => decide (r.timestampKey = mkTsKey f)) := by
      apply List.filter_congr
      intro x _
      rcases bfMap_shape fs f.fileSize x with ⟨h', he⟩
      simp [Function.comp, he]
    rw [hcg]
    simp [newRecord]
  have hupdd : updateDestPath (backfilled fs f.fileSize J ++
      [newRecord f J.length (hashOf c) [] 0 false]) J.length
      (computeDestPath cfg f (dupAny fs J f c) (seqOf J f)) (seqOf J f)
      (dupAny fs J f c) =
      backfilled fs f.fileSize J ++
        [newRecord f J.length (hashOf c)
          (computeDestPath cfg f (dupAny fs J f c) (seqOf J f))
          (seqOf J f) (dupAny fs J f c)] := by
    unfold updateDestPath
    have hres := updById_append (backfilled fs f.fileSize J)
      (newRecord f J.length (hashOf c) [] 0 false)
      (fun r =>
        { r with
            destPath := computeDestPath cfg f (dupAny fs J f c) (seqOf J f),
            seqNum := seqOf J f, isDuplicate := dupAny fs J f c })
      (by
        intro x hx
        have := mem_backfilled_id_lt hids hx
        simp only [newRecord]
        omega)
    simpa [newRecord] using hres
  unfold organizeStep
  rw [hcount]
  simp only [eq_true (show 2 ≤ (J.filter
    (fun r => r.fileSize = f.fileSize)).length + 1 by omega), if_true, hch]
  rw [hupdh, hbf]
  rw [hdup, hts]
  simp only [seqOf] at hupdd ⊢
  rw [hupdd]

/-! ## The organize-stage invariant

`Inv` captures the journal states reachable by the organize stage from a
pre-indexed destination journal, on a filesystem where every journaled
source file is readable: record ids are positions; stored sizes and hashes
agree with the filesystem; each size class is hashed all-or-nothing; index
records are an unhashed-or-backfilled non-duplicate prefix; a
non-index record is flagged duplicate exactly when an earlier record holds
the same content; sequence numbers and destinations are as assigned. -/

theorem hashOf_inj {a b : Str} (h : hashOf a = hashOf b) : a = b := by
  simpa [hashOf] using h

theorem hashOf_ne_nil (a : Str) : hashOf a ≠ [] := by simp [hashOf]

theorem mkTsKey_ne_nil (f : MediaFile) : mkTsKey f ≠ [] := by
  simp [mkTsKey]

/-- `computeDestPath` does not read the in-memory hash field. -/
theorem computeDestPath_hash (cfg : ScannerConfig) (f : MediaFile)
    (h' : Str) (dup : Bool) (sq : Nat) :
    computeDestPath cfg { f with hash := h' } dup sq =
      computeDestPath cfg f dup sq := rfl

/-- An already-journaled path is skipped without touching the journal. -/
theorem processOne_already (fs : FS) (cfg : ScannerConfig) (J : Journal)
    (f : MediaFile)
    (hex : J.any (fun x =>
      x.status ≠ Status.destIndex ∧ x.sourcePath = f.sourcePath) = true) :
    processOne fs cfg J f = (J, none) := by
  have hex' : J.any (fun x => decide (x.status ≠ Status.destIndex ∧
      x.sourcePath = (mkRecord f).sourcePath)) = true := hex
  unfold processOne insertFile
  rw [if_pos hex']

theorem inv_step_quiet (fs : FS) (cfg : ScannerConfig) (J : Journal)
    (f : MediaFile) (c : Str) (hInv : Inv fs cfg J)
    (hread : fs f.sourcePath = some c) (hsize : f.fileSize = c.length)
    (hn : (J.filter (fun r => r.fileSize = f.fileSize)).length = 0) :
    Inv fs cfg (J ++ [newRecord f J.length []
      (computeDestPath cfg f false (seqOf J f)) (seqOf J f) false]) := by
  set nr := newRecord f J.length []
    (computeDestPath cfg f false (seqOf J f)) (seqOf J f) false with hnr
  have hnone : ∀ r ∈ J, r.fileSize ≠ f.fileSize := by
    intro r hr he
    have hmem : r ∈ J.filter (fun r => decide (r.fileSize = f.fileSize)) :=
      List.mem_filter.mpr ⟨hr, by simpa using he⟩
    rw [List.length_eq_zero] at hn
    rw [hn] at hmem
    cases hmem
  have hlt : ∀ x ∈ J, x.id < J.length := fun x hx => hInv.ids.id_lt hx
  constructor
  · exact hInv.ids.append (by simp [hnr, newRecord])
  · intro r hr
    rcases List.mem_append.mp hr with h | h
    · exact hInv.consistent r h
    · have : r = nr := by simpa using h
      subst this
      exact ⟨c, by simpa [hnr, newRecord] using hread,
        by simp [hnr, newRecord, hsize], Or.inl (by simp [hnr, newRecord])⟩
  · intro r hr r' hr' hsz
    rcases List.mem_append.mp hr with h | h <;>
      rcases List.mem_append.mp hr' with h' | h'
    · exact hInv.uniform r h r' h' hsz
    · exfalso
      have : r' = nr := by simpa using h'
      subst this
      have : r.fileSize = f.fileSize := by
        simpa [hnr, newRecord] using hsz
      exact hnone r h this
    · exfalso
      have : r = nr := by simpa using h
      subst this
      have : r'.fileSize = f.fileSize := by
        have := hsz.symm
        simpa [hnr, newRecord] using this
      exact hnone r' h' this
    · have hr2 : r = nr := by simpa using h
      have hr2' : r' = nr := by simpa using h'
      subst hr2; subst hr2'
      exact Iff.rfl
  · intro r hr hst
    rcases List.mem_append.mp hr with h | h
    · exact hInv.destFlag r h hst
    · exfalso
      have : r = nr := by simpa using h
      subst this
      simp [hnr, newRecord] at hst
  · intro r hr r' hr' hst hst'
    rcases List.mem_append.mp hr with h | h
    · rcases List.mem_append.mp hr' with h' | h'
      · exact hInv.destFirst r h r' h' hst hst'
      · have : r' = nr := by simpa using h'
        subst this
        have := hlt r h
        simpa [hnr, newRecord] using this
    · exfalso
      have : r = nr := by simpa using h
      subst this
      simp [hnr, newRecord] at hst
  · intro r hr hst
    rcases List.mem_append.mp hr with h | h
    · have base := hInv.dupIff r h hst
      constructor
      · intro hd
        rcases base.mp hd with ⟨r', hr', hlt', hfs⟩
        exact ⟨r', List.mem_append.mpr (Or.inl hr'), hlt', hfs⟩
      · rintro ⟨r', hr'm, hlt', hfs⟩
        rcases List.mem_append.mp hr'm with h' | h'
        · exact base.mpr ⟨r', h', hlt', hfs⟩
        · exfalso
          have : r' = nr := by simpa using h'
          subst this
          have h1 := hlt r h
          have h2 : (J.length : Nat) < r.id := by
            simpa [hnr, newRecord] using hlt'
          omega
    · have hre : r = nr := by simpa using h
      subst hre
      constructor
      · intro hfalse
        simp [hnr, newRecord] at hfalse
      · rintro ⟨r', hr'm, hlt', hfs⟩
        exfalso
        rcases List.mem_append.mp hr'm with h' | h'
        · rcases hInv.consistent r' h' with ⟨c', hc', hsz', -⟩
          have hps : fs r'.sourcePath = some c := by
            have : fs r'.sourcePath = fs f.sourcePath := by
              simpa [hnr, newRecord] using hfs
            rw [this, hread]
          rw [hps] at hc'
          have : c' = c := by
            exact (Option.some.inj hc').symm
          subst this
          exact hnone r' h' (by omega)
        · have : r' = nr := by simpa using h'
          subst this
          simp [hnr, newRecord] at hlt'
  · intro r hr hst
    rcases List.mem_append.mp hr with h | h
    · have hfil : (J ++ [nr]).filter (fun x =>
          x.timestampKey = r.timestampKey ∧ x.id ≤ r.id) =
          J.filter (fun x =>
            x.timestampKey = r.timestampKey ∧ x.id ≤ r.id) := by
        rw [List.filter_append]
        have hnil : [nr].filter (fun x =>
            decide (x.timestampKey = r.timestampKey ∧ x.id ≤ r.id)) = [] := by
          have hnle : ¬ (nr.id ≤ r.id) := by
            have := hlt r h
            simp only [hnr, newRecord]
            omega
          simp [hnle]
        rw [hnil, List.append_nil]
      rw [hfil]
      exact hInv.seqChar r h hst
    · have hre : r = nr := by simpa using h
      subst hre
      have hfil : (J ++ [nr]).filter (fun x =>
          x.timestampKey = nr.timestampKey ∧ x.id ≤ nr.id) =
          (J.filter (fun x => x.timestampKey = mkTsKey f)) ++ [nr] := by
        rw [List.filter_append]
        congr 1
        · apply List.filter_congr
          intro x hx
          have hxle : x.id ≤ nr.id := by
            have := hlt x hx
            simp only [hnr, newRecord]
            omega
          rw [decide_eq_decide]
          constructor
          · rintro ⟨h1, -⟩
            simpa [hnr, newRecord] using h1
          · intro h1
            exact ⟨by simpa [hnr, newRecord] using h1, hxle⟩
        · simp
      rw [hfil]
      simp only [List.length_append, List.length_cons, List.length_nil]
      simp [hnr, newRecord, seqOf]
  · intro r hr hst
    rcases List.mem_append.mp hr with h | h
    · exact hInv.destChar r h hst
    · have hre : r = nr := by simpa using h
      subst hre
      show nr.destPath = _
      simp only [hnr, newRecord, recordToMediaFile]
      exact (computeDestPath_hash cfg f [] false (seqOf J f)).symm

theorem backfilled_filter_length (fs : FS) (size : Nat) (J : Journal)
    (p : FileRecord → Bool)
    (hp : ∀ x ∈ J, p (bfMap fs size x) = p x) :
    ((backfilled fs size J).filter p).length = (J.filter p).length := by
  unfold backfilled
  rw [List.filter_map, List.length_map]
  congr 1
  apply List.filter_congr
  intro x hx
  simpa [Function.comp] using hp x hx

/-- The backfill action on a record of known content. -/
theorem bfMap_readable (fs : FS) (size : Nat) (x : FileRecord) (cx : Str)
    (hc : fs x.sourcePath = some cx) :
    bfMap fs size x =
      (if x.fileSize = size ∧ x.hash = [] then { x with hash := hashOf cx }
       else x) := by
  unfold bfMap bfApply fallbackPath computeFileHash
  simp [hc]

theorem inv_step_trigger (fs : FS) (cfg : ScannerConfig) (J : Journal)
    (f : MediaFile) (c : Str) (hInv : Inv fs cfg J)
    (hread : fs f.sourcePath = some c) (hsize : f.fileSize = c.length) :
    Inv fs cfg (backfilled fs f.fileSize J ++
      [newRecord f J.length (hashOf c)
        (computeDestPath cfg f (dupAny fs J f c) (seqOf J f))
        (seqOf J f) (dupAny fs J f c)]) := by
  set Jb := backfilled fs f.fileSize J with hJb
  set nr := newRecord f J.length (hashOf c)
    (computeDestPath cfg f (dupAny fs J f c) (seqOf J f))
    (seqOf J f) (dupAny fs J f c) with hnr
  have hxc : ∀ x ∈ J, ∃ cx, fs x.sourcePath = some cx ∧
      x.fileSize = cx.length ∧ (x.hash = [] ∨ x.hash = hashOf cx) ∧
      bfMap fs f.fileSize x =
        (if x.fileSize = f.fileSize ∧ x.hash = []
         then { x with hash := hashOf cx } else x) := by
    intro x hx
    rcases hInv.consistent x hx with ⟨cx, hc, hs, hh⟩
    exact ⟨cx, hc, hs, hh, bfMap_readable fs f.fileSize x cx hc⟩
  have hmemJb : ∀ a ∈ Jb, ∃ x ∈ J, a = bfMap fs f.fileSize x := by
    intro a ha
    rcases List.mem_map.mp ha with ⟨x, hx, he⟩
    exact ⟨x, hx, he.symm⟩
  have hJbmem : ∀ x ∈ J, bfMap fs f.fileSize x ∈ Jb :=
    fun x hx => List.mem_map_of_mem _ hx
  have hJbid : ∀ a ∈ Jb, a.id < J.length :=
    fun a ha => mem_backfilled_id_lt hInv.ids ha
  have hlenJb : Jb.length = J.length := List.length_map J _
  have hclass : ∀ a ∈ Jb ++ [nr], a.fileSize = f.fileSize →
      a.hash ≠ [] := by
    intro a ha hsz
    rcases List.mem_append.mp ha with h | h
    · rcases hmemJb a h with ⟨x, hx, he⟩
      rcases hxc x hx with ⟨cx, hc, hs, hh, hbf⟩
      rw [he, hbf]
      have hxf : x.fileSize = f.fileSize := by
        rcases bfMap_shape fs f.fileSize x with ⟨h', he'⟩
        rw [he, he'] at hsz
        simpa using hsz
      by_cases hxh : x.hash = []
      · rw [if_pos ⟨hxf, hxh⟩]
        simpa using hashOf_ne_nil cx
      · rw [if_neg (by tauto)]
        exact hxh
    · have : a = nr := by simpa using h
      subst this
      simpa [hnr, newRecord] using hashOf_ne_nil c
  have hnotf : ∀ a ∈ Jb, a.fileSize ≠ f.fileSize → a ∈ J ∧ a.hash ≠ [] ∨
      a ∈ J := by
    intro a ha hne
    rcases hmemJb a ha with ⟨x, hx, he⟩
    rcases hxc x hx with ⟨cx, hc, hs, hh, hbf⟩
    right
    have hxf : x.fileSize ≠ f.fileSize := by
      intro hcon
      apply hne
      rcases bfMap_shape fs f.fileSize x with ⟨h', he'⟩
      rw [he, he']
      simpa using hcon
    rw [he, hbf, if_neg (by tauto)]
    exact hx
  constructor
  · have hidsJb : IdsOk Jb := hInv.ids.map (bfMap_id fs f.fileSize)
    have := hidsJb.append (r := nr) (by simp [hnr, newRecord, hlenJb])
    exact this
  · intro a ha
    rcases List.mem_append.mp ha with h | h
    · rcases hmemJb a h with ⟨x, hx, he⟩
      rcases hxc x hx with ⟨cx, hc, hs, hh, hbf⟩
      refine ⟨cx, ?_, ?_, ?_⟩
      · rcases bfMap_shape fs f.fileSize x with ⟨h', he'⟩
        rw [he, he']
        simpa using hc
      · rcases bfMap_shape fs f.fileSize x with ⟨h', he'⟩
        rw [he, he']
        simpa using hs
      · rw [he, hbf]
        by_cases hcon : x.fileSize = f.fileSize ∧ x.hash = []
        · rw [if_pos hcon]
          right
          simp
        · rw [if_neg hcon]
          exact hh
    · have : a = nr := by simpa using h
      subst this
      refine ⟨c, by simpa [hnr, newRecord] using hread,
        by simp [hnr, newRecord, hsize], Or.inr (by simp [hnr, newRecord])⟩
  · intro a ha b hb hsz
    by_cases hfa : a.fileSize = f.fileSize
    · have hfb : b.fileSize = f.fileSize := by rw [← hsz]; exact hfa
      exact iff_of_false (hclass a ha hfa) (hclass b hb hfb)
    · have hfb : b.fileSize ≠ f.fileSize := by rw [← hsz]; exact hfa
      have haJ : a ∈ J := by
        rcases List.mem_append.mp ha with h | h
        · rcases hnotf a h hfa with ⟨h1, -⟩ | h1 <;> exact h1
        · exfalso
          apply hfa
          have : a = nr := by simpa using h
          subst this
          simp [hnr, newRecord]
      have hbJ : b ∈ J := by
        rcases List.mem_append.mp hb with h | h
        · rcases hnotf b h hfb with ⟨h1, -⟩ | h1 <;> exact h1
        · exfalso
          apply hfb
          have : b = nr := by simpa using h
          subst this
          simp [hnr, newRecord]
      exact hInv.uniform a haJ b hbJ hsz
  · intro a ha hst
    rcases List.mem_append.mp ha with h | h
    · rcases hmemJb a h with ⟨x, hx, he⟩
      rcases bfMap_shape fs f.fileSize x with ⟨h', he'⟩
      rw [he, he'] at hst ⊢
      have hx1 := hInv.destFlag x hx (by simpa using hst)
      constructor
      · simpa using hx1.1
      · simpa using hx1.2
    · exfalso
      have : a = nr := by simpa using h
      subst this
      simp [hnr, newRecord] at hst
  · intro a ha b hb hst hst'
    rcases List.mem_append.mp ha with h | h
    · rcases hmemJb a h with ⟨x, hx, he⟩
      rcases bfMap_shape fs f.fileSize x with ⟨h', he'⟩
      rcases List.mem_append.mp hb with h2 | h2
      · rcases hmemJb b h2 with ⟨y, hy, he2⟩
        rcases bfMap_shape fs f.fileSize y with ⟨h2', he2'⟩
        rw [he, he'] at hst ⊢
        rw [he2, he2'] at hst' ⊢
        have := hInv.destFirst x hx y hy (by simpa using hst)
          (by simpa using hst')
        simpa using this
      · have : b = nr := by simpa using h2
        subst this
        have := hJbid a h
        simpa [hnr, newRecord] using this
    · exfalso
      have : a = nr := by simpa using h
      subst this
      simp [hnr, newRecord] at hst
  · intro a ha hst
    rcases List.mem_append.mp ha with h | h
    · rcases hmemJb a h with ⟨x, hx, he⟩
      rcases bfMap_shape fs f.fileSize x with ⟨h', he'⟩
      have hstx : x.status ≠ Status.destIndex := by
        rw [he, he'] at hst
        simpa using hst
      have base := hInv.dupIff x hx hstx
      have haid : a.id = x.id := by rw [he, he']
      have hasp : a.sourcePath = x.sourcePath := by rw [he, he']
      have hadup : a.isDuplicate = x.isDuplicate := by rw [he, he']
      rw [haid, hasp, hadup]
      constructor
      · intro hd
        rcases base.mp hd with ⟨r', hr', hlt', hfs⟩
        refine ⟨bfMap fs f.fileSize r',
          List.mem_append.mpr (Or.inl (hJbmem r' hr')), ?_, ?_⟩
        · rcases bfMap_shape fs f.fileSize r' with ⟨hr2, her2⟩
          rw [her2]
          simpa using hlt'
        · rcases bfMap_shape fs f.fileSize r' with ⟨hr2, her2⟩
          rw [her2]
          simpa using hfs
      · rintro ⟨m, hm, hlt', hfs⟩
        rcases List.mem_append.mp hm with h2 | h2
        · rcases hmemJb m h2 with ⟨y, hy, he2⟩
          rcases bfMap_shape fs f.fileSize y with ⟨h2', he2'⟩
          apply base.mpr
          refine ⟨y, hy, ?_, ?_⟩
          · rw [he2, he2'] at hlt'
            simpa using hlt'
          · rw [he2, he2'] at hfs
            simpa using hfs
        · exfalso
          have : m = nr := by simpa using h2
          subst this
          have h3 : x.id < J.length := hInv.ids.id_lt hx
          have h4 : (J.length : Nat) < x.id := by
            simpa [hnr, newRecord] using hlt'
          omega
    · have hae : a = nr := by simpa using h
      subst hae
      have hnrsp : fs nr.sourcePath = some c := by
        simpa [hnr, newRecord] using hread
      constructor
      · intro hd
        have hd' : dupAny fs J f c = true := by
          simpa [hnr, newRecord] using hd
        unfold dupAny at hd'
        rw [List.any_eq_true] at hd'
        rcases hd' with ⟨m, hmB, hmq⟩
        have hmq' : m.hash = hashOf c := by simpa using hmq
        rcases hmemJb m hmB with ⟨x, hx, he⟩
        rcases hxc x hx with ⟨cx, hc, hs, hh, hbf⟩
        have hxsp : fs x.sourcePath = some c := by
          have hcx : cx = c := by
            apply hashOf_inj
            by_cases hcon : x.fileSize = f.fileSize ∧ x.hash = []
            · rw [he, hbf, if_pos hcon] at hmq'
              simpa using hmq'
            · rw [he, hbf, if_neg hcon] at hmq'
              rcases hh with h1 | h1
              · rw [h1] at hmq'
                exact absurd hmq'.symm (hashOf_ne_nil c)
              · rw [← h1]
                exact hmq'
          rw [hc, hcx]
        refine ⟨m, List.mem_append.mpr (Or.inl hmB), ?_, ?_⟩
        · have := hJbid m hmB
          simpa [hnr, newRecord] using this
        · rcases bfMap_shape fs f.fileSize x with ⟨h', he'⟩
          rw [he, he']
          rw [hnrsp]
          simpa using hxsp
      · rintro ⟨m, hm, hlt', hfs⟩
        rcases List.mem_append.mp hm with h2 | h2
        · rcases hmemJb m h2 with ⟨x, hx, he⟩
          rcases hxc x hx with ⟨cx, hc, hs, hh, hbf⟩
          have hxsp : fs x.sourcePath = some c := by
            rcases bfMap_shape fs f.fileSize x with ⟨h', he'⟩
            rw [he, he'] at hfs
            rw [hnrsp] at hfs
            simpa using hfs
          have hcx : cx = c := by
            rw [hxsp] at hc
            exact (Option.some.inj hc).symm
          have hxf : x.fileSize = f.fileSize := by
            rw [hs, hcx, hsize]
          have hmhash : m.hash = hashOf c := by
            by_cases hxh : x.hash = []
            · rw [he, hbf, if_pos ⟨hxf, hxh⟩]
              show hashOf cx = hashOf c
              rw [hcx]
            · rcases hh with h1 | h1
              · exact absurd h1 hxh
              · rw [he, hbf, if_neg (by tauto), h1, hcx]
          show nr.isDuplicate = true
          have hda : dupAny fs J f c = true := by
            unfold dupAny
            rw [List.any_eq_true]
            exact ⟨m, h2, by simpa using hmhash⟩
          simpa [hnr, newRecord] using hda
        · exfalso
          have : m = nr := by simpa using h2
          subst this
          simp at hlt'
  · intro a ha hst
    rcases List.mem_append.mp ha with h | h
    · rcases hmemJb a h with ⟨x, hx, he⟩
      rcases bfMap_shape fs f.fileSize x with ⟨h', he'⟩
      have hstx : x.status ≠ Status.destIndex := by
        rw [he, he'] at hst
        simpa using hst
      have haid : a.id = x.id := by rw [he, he']
      have hakey : a.timestampKey = x.timestampKey := by rw [he, he']
      have haseq : a.seqNum = x.seqNum := by rw [he, he']
      have hfil : ((Jb ++ [nr]).filter (fun z =>
          z.timestampKey = a.timestampKey ∧ z.id ≤ a.id)).length =
          ((J.filter (fun z =>
            z.timestampKey = x.timestampKey ∧ z.id ≤ x.id))).length := by
        rw [List.filter_append]
        have hnil : [nr].filter (fun z =>
            decide (z.timestampKey = a.timestampKey ∧ z.id ≤ a.id)) = [] := by
          have hnle : ¬ (nr.id ≤ a.id) := by
            have h1 := hInv.ids.id_lt hx
            rw [haid]
            simp only [hnr, newRecord]
            omega
          simp [hnle]
        rw [hnil, List.append_nil, haid, hakey]
        apply backfilled_filter_length
        intro y hy
        rcases bfMap_shape fs f.fileSize y with ⟨h2', he2'⟩
        rw [he2']
      rw [hfil, haseq]
      exact hInv.seqChar x hx hstx
    · have hae : a = nr := by simpa using h
      subst hae
      have hfil : ((Jb ++ [nr]).filter (fun z =>
          z.timestampKey = nr.timestampKey ∧ z.id ≤ nr.id)).length =
          (J.filter (fun z => z.timestampKey = mkTsKey f)).length + 1 := by
        rw [List.filter_append]
        have hone : [nr].filter (fun z =>
            decide (z.timestampKey = nr.timestampKey ∧ z.id ≤ nr.id)) =
            [nr] := by simp
        rw [hone]
        simp only [List.length_append, List.length_cons, List.length_nil]
        congr 1
        have hcg : Jb.filter (fun z =>
            decide (z.timestampKey = nr.timestampKey ∧ z.id ≤ nr.id)) =
            Jb.filter (fun z => decide (z.timestampKey = mkTsKey f)) := by
          apply List.filter_congr
          intro z hz
          have hzle : z.id ≤ nr.id := by
            have := hJbid z hz
            simp only [hnr, newRecord]
            omega
          rw [decide_eq_decide]
          constructor
          · rintro ⟨h1, -⟩
            simpa [hnr, newRecord] using h1
          · intro h1
            exact ⟨by simpa [hnr, newRecord] using h1, hzle⟩
        rw [hcg]
        apply backfilled_filter_length
        intro y hy
        rcases bfMap_shape fs f.fileSize y with ⟨h2', he2'⟩
        rw [he2']
      rw [hfil]
      simp [hnr, newRecord, seqOf]
  · intro a ha hst
    rcases List.mem_append.mp ha with h | h
    · rcases hmemJb a h with ⟨x, hx, he⟩
      rcases bfMap_shape fs f.fileSize x with ⟨h', he'⟩
      have hstx : x.status ≠ Status.destIndex := by
        rw [he, he'] at hst
        simpa using hst
      have base := hInv.destChar x hx hstx
      rw [he, he']
      show ({ x with hash := h' } : FileRecord).destPath = _
      have h1 : ({ x with hash := h' } : FileRecord).destPath = x.destPath :=
        rfl
      have h2 : recordToMediaFile { x with hash := h' } =
          { recordToMediaFile x with hash := h' } := rfl
      rw [h1, h2, base]
      have h3 : ({ x with hash := h' } : FileRecord).isDuplicate =
          x.isDuplicate := rfl
      have h4 : ({ x with hash := h' } : FileRecord).seqNum = x.seqNum := rfl
      rw [h3, h4]
      exact (computeDestPath_hash cfg (recordToMediaFile x) h' x.isDuplicate
        x.seqNum).symm
    · have hae : a = nr := by simpa using h
      subst hae
      show nr.destPath = _
      simp only [hnr, newRecord, recordToMediaFile]
      exact (computeDestPath_hash cfg f (hashOf c) (dupAny fs J f c)
        (seqOf J f)).symm

theorem inv_processOne (fs : FS) (cfg : ScannerConfig) (J : Journal)
    (f : MediaFile) (c : Str) (hInv : Inv fs cfg J)
    (hread : fs f.sourcePath = some c) (hsize : f.fileSize = c.length) :
    Inv fs cfg (processOne fs cfg J f).1 := by
  by_cases hex : J.any (fun x =>
      x.status ≠ Status.destIndex ∧ x.sourcePath = f.sourcePath) = true
  · rw [processOne_already fs cfg J f hex]
    exact hInv
  · have hexf : J.any (fun x =>
        x.status ≠ Status.destIndex ∧ x.sourcePath = f.sourcePath) = false :=
      by simpa using hex
    by_cases hn : (J.filter (fun r => r.fileSize = f.fileSize)).length = 0
    · rw [processOne_quiet fs cfg J f hInv.ids hexf hn]
      exact inv_step_quiet fs cfg J f c hInv hread hsize hn
    · rw [processOne_trigger fs cfg J f c hInv.ids hexf hread (by omega)]
      exact inv_step_trigger fs cfg J f c hInv hread hsize

theorem inv_runOrganize (fs : FS) (cfg : ScannerConfig) (J : Journal)
    (files : List MediaFile) (hInv : Inv fs cfg J)
    (hok : filesOk fs files = true) :
    Inv fs cfg (runOrganize fs cfg J files) := by
  induction files generalizing J with
  | nil => exact hInv
  | cons f t ih =>
    unfold filesOk at hok
    rw [List.all_cons, Bool.and_eq_true] at hok
    have hok1 := hok.1
    have hok2 : filesOk fs t = true := hok.2
    unfold runOrganize
    rw [List.foldl_cons]
    cases hc : fs f.sourcePath with
    | none =>
      rw [hc] at hok1
      cases hok1
    | some c =>
      rw [hc] at hok1
      have hsz : f.fileSize = c.length := by simpa using hok1
      exact ih (processOne fs cfg J f).1
        (inv_processOne fs cfg J f c hInv hc hsz) hok2

theorem destInv_fold (fs : FS) (entries : List DestFile) :
    ∀ J : Journal, DestInv fs J → entriesOk fs entries = true →
      DestInv fs (entries.foldl
        (fun J e =>
          if J.any (fun r => r.sourcePath = e.path) then J
          else J ++ [destRecord e J.length]) J) := by
  induction entries with
  | nil => intro J h _; exact h
  | cons e t ih =>
    intro J hJ hok
    unfold entriesOk at hok
    rw [List.all_cons, Bool.and_eq_true] at hok
    have hok1 := hok.1
    have hok2 : entriesOk fs t = true := hok.2
    rw [List.foldl_cons]
    by_cases hdup : J.any (fun r => decide (r.sourcePath = e.path)) = true
    · rw [if_pos hdup]
      exact ih J hJ hok2
    · rw [if_neg (by simpa using hdup)]
      apply ih
      constructor
      · exact hJ.1.append (by simp [destRecord])
      · intro r hr
        rcases List.mem_append.mp hr with h | h
        · exact hJ.2 r h
        · have : r = destRecord e J.length := by simpa using h
          subst this
          refine ⟨rfl, rfl, rfl, rfl, ?_⟩
          cases hc : fs e.path with
          | none =>
            rw [hc] at hok1
            cases hok1
          | some c =>
            rw [hc] at hok1
            exact ⟨c, by simpa [destRecord] using hc,
              by simpa [destRecord] using hok1⟩
      · exact hok2

theorem inv_mkDestJournal (fs : FS) (cfg : ScannerConfig)
    (entries : List DestFile) (hok : entriesOk fs entries = true) :
    Inv fs cfg (mkDestJournal entries) := by
  have hD : DestInv fs (mkDestJournal entries) := by
    unfold mkDestJournal
    have hnil : DestInv fs [] := by
      constructor
      · intro i r h
        cases h
      · intro r h
        cases h
    exact destInv_fold fs entries [] hnil hok
  obtain ⟨hids, hall⟩ := hD
  constructor
  · exact hids
  · intro r hr
    rcases hall r hr with ⟨-, hh, -, -, c, hc, hs⟩
    exact ⟨c, hc, hs, Or.inl hh⟩
  · intro r hr r' hr' _
    rw [(hall r hr).2.1, (hall r' hr').2.1]
  · intro r hr _
    exact ⟨(hall r hr).2.2.1, (hall r hr).2.2.2.1⟩
  · intro r hr r' hr' _ hst'
    exact absurd (hall r' hr').1 hst'
  · intro r hr hst
    exact absurd (hall r hr).1 hst
  · intro r hr hst
    exact absurd (hall r hr).1 hst
  · intro r hr hst
    exact absurd (hall r hr).1 hst

/-! ## Counting duplicates per hash group -/

theorem idsOk_pairwise {J : Journal} (h : IdsOk J) :
    J.Pairwise (fun a b => a.id < b.id) := by
  rw [List.pairwise_iff_getElem]
  intro i j hi hj hij
  have e1 := h i _ (List.getElem?_eq_getElem hi)
  have e2 := h j _ (List.getElem?_eq_getElem hj)
  omega

theorem filter_length_split {α : Type} (l : List α) (p : α → Bool) :
    (l.filter p).length + (l.filter (fun a => ! p a)).length = l.length := by
  induction l with
  | nil => rfl
  | cons a t ih =>
    cases hp : p a <;> simp [List.filter_cons, hp] <;> omega

/-- In a list of records ordered by id in which the `dest_index` records
come first and are never flagged duplicate, and in which a non-index
record is flagged duplicate exactly when some earlier listed record
exists, the number of unflagged records is the number of `dest_index`
records, or one if there are none (and the list is non-empty). -/
theorem nondup_count (G : List FileRecord)
    (hpw : G.Pairwise (fun a b => a.id < b.id))
    (hdfl : ∀ a ∈ G, a.status = Status.destIndex → a.isDuplicate = false)
    (hord : ∀ a ∈ G, ∀ b ∈ G, a.status = Status.destIndex →
      b.status ≠ Status.destIndex → a.id < b.id)
    (hflag : ∀ a ∈ G, a.status ≠ Status.destIndex →
      (a.isDuplicate = true ↔ ∃ b ∈ G, b.id < a.id)) :
    (G.filter (fun r => r.isDuplicate = false)).length =
      max (G.filter (fun r => r.status = Status.destIndex)).length
        (min 1 G.length) := by
  cases G with
  | nil => rfl
  | cons x t =>
    have hxmem : x ∈ x :: t := List.mem_cons_self x t
    have hpx := List.pairwise_cons.mp hpw
    have hxnd : x.isDuplicate = false := by
      by_cases hxs : x.status = Status.destIndex
      · exact hdfl x hxmem hxs
      · have hiff := hflag x hxmem hxs
        have hno : ¬ ∃ b ∈ x :: t, b.id < x.id := by
          rintro ⟨b, hb, hblt⟩
          rcases List.mem_cons.mp hb with rfl | hbt
          · omega
          · have := hpx.1 b hbt
            omega
        cases hxd : x.isDuplicate
        · rfl
        · exact absurd (hiff.mp hxd) hno
    have hcong : ∀ a ∈ t,
        (decide (a.isDuplicate = false)) =
          (decide (a.status = Status.destIndex)) := by
      intro a hat
      have hamem : a ∈ x :: t := List.mem_cons_of_mem _ hat
      by_cases has : a.status = Status.destIndex
      · simp [hdfl a hamem has, has]
      · have hdup : a.isDuplicate = true :=
          (hflag a hamem has).mpr ⟨x, hxmem, hpx.1 a hat⟩
        simp [hdup, has]
    rw [List.filter_cons, List.filter_cons]
    by_cases hxs : x.status = Status.destIndex
    · simp only [hxnd, hxs, decide_True, if_true, List.length_cons]
      rw [List.filter_congr hcong]
      have hmin : min 1 (t.length + 1) = 1 := by omega
      simp only [List.length_cons, hmin]
      omega
    · have hnod : t.filter (fun r => decide (r.status = Status.destIndex)) =
          [] := by
        rw [List.filter_eq_nil_iff]
        intro a hat
        simp only [decide_eq_true_eq]
        intro has
        have h1 := hord a (List.mem_cons_of_mem _ hat) x hxmem has hxs
        have h2 := hpx.1 a hat
        omega
      simp only [hxnd, decide_True, if_true,
        show (decide (x.status = Status.destIndex)) = false by simpa using hxs]
      rw [List.filter_congr hcong, hnod]
      simp

/-- The hash-group facts needed for the duplicate count, extracted from the
invariant. -/
theorem hash_group_facts (fs : FS) (cfg : ScannerConfig) (J : Journal)
    (hInv : Inv fs cfg J) (h : Str) (hne : h ≠ []) :
    (hashGroup J h).Pairwise (fun a b => a.id < b.id) ∧
    (∀ a ∈ hashGroup J h, a.status = Status.destIndex →
      a.isDuplicate = false) ∧
    (∀ a ∈ hashGroup J h, ∀ b ∈ hashGroup J h,
      a.status = Status.destIndex → b.status ≠ Status.destIndex →
      a.id < b.id) ∧
    (∀ a ∈ hashGroup J h, a.status ≠ Status.destIndex →
      (a.isDuplicate = true ↔ ∃ b ∈ hashGroup J h, b.id < a.id)) := by
  have hGmem : ∀ a ∈ hashGroup J h, a ∈ J ∧ a.hash = h := by
    intro a ha
    have hm := List.mem_filter.mp (show a ∈ J.filter
      (fun r => decide (r.hash = h)) from ha)
    exact ⟨hm.1, by simpa using hm.2⟩
  refine ⟨(idsOk_pairwise hInv.ids).filter _, ?_, ?_, ?_⟩
  · intro a ha hs
    exact (hInv.destFlag a (hGmem a ha).1 hs).1
  · intro a ha b hb hs hs'
    exact hInv.destFirst a (hGmem a ha).1 b (hGmem b hb).1 hs hs'
  · intro a ha hst
    obtain ⟨haJ, hah⟩ := hGmem a ha
    rcases hInv.consistent a haJ with ⟨ca, hca, hsa, hha⟩
    have hah' : a.hash = hashOf ca := by
      rcases hha with h1 | h1
      · rw [h1] at hah
        exact absurd hah.symm hne
      · exact h1
    have hhc : h = hashOf ca := by rw [← hah, hah']
    have base := hInv.dupIff a haJ hst
    constructor
    · intro hd
      rcases base.mp hd with ⟨r', hr', hlt', hfs⟩
      refine ⟨r', ?_, hlt'⟩
      rcases hInv.consistent r' hr' with ⟨c', hc', hs', hh'⟩
      have : c' = ca := by
        rw [hca] at hfs
        rw [hfs] at hc'
        exact (Option.some.inj hc').symm
      subst this
      have hszeq : r'.fileSize = a.fileSize := by rw [hs', hsa]
      have huni := hInv.uniform a haJ r' hr' (by omega)
      have hr'ne : r'.hash ≠ [] := by
        intro hnil
        have := huni.mpr hnil
        rw [this] at hah
        exact hne hah.symm
      have hr'h : r'.hash = h := by
        rcases hh' with h1 | h1
        · exact absurd h1 hr'ne
        · rw [h1, hhc]
      exact List.mem_filter.mpr ⟨hr', by simpa using hr'h⟩
    · rintro ⟨b, hbG, hblt⟩
      obtain ⟨hbJ, hbh⟩ := hGmem b hbG
      rcases hInv.consistent b hbJ with ⟨cb, hcb, hsb, hhb⟩
      have hbh' : b.hash = hashOf cb := by
        rcases hhb with h1 | h1
        · rw [h1] at hbh
          exact absurd hbh.symm hne
        · exact h1
      have : cb = ca := by
        apply hashOf_inj
        rw [← hbh', hbh, hhc]
      subst this
      apply base.mpr
      refine ⟨b, hbJ, hblt, ?_⟩
      rw [hcb, hca]

/-! ## Claim C1 -/

/-- C1 counterexample: with two identical pre-indexed destination copies
and one identical source file, the final hash group has three records of
which TWO are non-duplicate and only one is duplicate — not "exactly one
non-duplicate" and not "duplicates = matches − 1 = 2" as the claim
states for groups involving destination pre-indexing. -/
theorem claim_C1_counterexample :
    (hashGroup (runOrganize exFs exCfg (mkDestJournal [exDest1, exDest2])
        [exFileA]) (hashOf "AAAA".toList)).length = 3 ∧
    ((hashGroup (runOrganize exFs exCfg (mkDestJournal [exDest1, exDest2])
        [exFileA]) (hashOf "AAAA".toList)).filter
      (fun r => r.isDuplicate = false)).length = 2 ∧
    ((hashGroup (runOrganize exFs exCfg (mkDestJournal [exDest1, exDest2])
        [exFileA]) (hashOf "AAAA".toList)).filter
      (fun r => r.isDuplicate = true)).length = 1 := by decide

/-- C1 (amended): in a run of the organize stage over a pre-indexed
destination journal, within every hash group of the final journal:
pre-indexed (`dest_index`) records are never marked duplicate; whenever
the group contains at most one pre-indexed record, exactly one record of
the group is non-duplicate and the duplicate count equals the group size
minus one; and whenever the group contains any pre-indexed record, every
same-run record of the group is marked duplicate (so with two or more
pre-indexed records each of them stays non-duplicate and only the
same-run records are counted as duplicates). -/
theorem claim_C1_dedup_per_hash_group (fs : FS) (cfg : ScannerConfig)
    (entries : List DestFile) (files : List MediaFile) (h : Str)
    (hok : entriesOk fs entries = true) (hfok : filesOk fs files = true)
    (hne : h ≠ []) :
    (∀ r ∈ hashGroup (runOrganize fs cfg (mkDestJournal entries) files) h,
      r.status = Status.destIndex → r.isDuplicate = false) ∧
    (((hashGroup (runOrganize fs cfg (mkDestJournal entries) files)
          h).filter (fun r => r.status = Status.destIndex)).length ≤ 1 →
      hashGroup (runOrganize fs cfg (mkDestJournal entries) files) h ≠ [] →
      ((hashGroup (runOrganize fs cfg (mkDestJournal entries) files)
          h).filter (fun r => r.isDuplicate = false)).length = 1 ∧
      ((hashGroup (runOrganize fs cfg (mkDestJournal entries) files)
          h).filter (fun r => r.isDuplicate = true)).length =
        (hashGroup (runOrganize fs cfg (mkDestJournal entries) files)
          h).length - 1) ∧
    (1 ≤ ((hashGroup (runOrganize fs cfg (mkDestJournal entries) files)
          h).filter (fun r => r.status = Status.destIndex)).length →
      ∀ r ∈ hashGroup (runOrganize fs cfg (mkDestJournal entries) files) h,
        r.status ≠ Status.destIndex → r.isDuplicate = true) := by
  have hInv := inv_runOrganize fs cfg (mkDestJournal entries) files
    (inv_mkDestJournal fs cfg entries hok) hfok
  obtain ⟨hpw, hdfl, hord, hflag⟩ :=
    hash_group_facts fs cfg _ hInv h hne
  refine ⟨hdfl, ?_, ?_⟩
  · intro hD hGne
    have hcnt := nondup_count _ hpw hdfl hord hflag
    have hlenpos : 0 <
        (hashGroup (runOrganize fs cfg (mkDestJournal entries) files)
          h).length := List.length_pos.mpr hGne
    have hnval : ((hashGroup (runOrganize fs cfg (mkDestJournal entries)
        files) h).filter (fun r => r.isDuplicate = false)).length = 1 := by
      rw [hcnt]
      omega
    refine ⟨hnval, ?_⟩
    have hsplit := filter_length_split
      (hashGroup (runOrganize fs cfg (mkDestJournal entries) files) h)
      (fun r => decide (r.isDuplicate = true))
    have hcong : (hashGroup (runOrganize fs cfg (mkDestJournal entries)
          files) h).filter (fun a => ! (decide (a.isDuplicate = true))) =
        (hashGroup (runOrganize fs cfg (mkDestJournal entries) files)
          h).filter (fun r => decide (r.isDuplicate = false)) := by
      apply List.filter_congr
      intro a _
      cases hda : a.isDuplicate <;> simp [hda]
    rw [hcong, hnval] at hsplit
    omega
  · intro hD1 r hrG hst
    have hpos : 0 < ((hashGroup (runOrganize fs cfg (mkDestJournal entries)
        files) h).filter
          (fun r => decide (r.status = Status.destIndex))).length := by
      omega
    rcases List.exists_mem_of_length_pos hpos with ⟨d, hd⟩
    have hdG := List.mem_of_mem_filter hd
    have hddest : d.status = Status.destIndex := by
      have := (List.mem_filter.mp hd).2
      simpa using this
    exact (hflag r hrG hst).mpr ⟨d, hdG, hord d hdG r hrG hddest hst⟩

/-- C1 witness: two identical same-run source files with no pre-indexed
destination records; the theorem yields exactly one non-duplicate and one
duplicate in the hash group. -/
theorem claim_C1_dedup_per_hash_group_witness :
    entriesOk exFs ([] : List DestFile) = true ∧
    filesOk exFs [exFileA, exFileB] = true ∧
    hashOf "AAAA".toList ≠ [] ∧
    ((hashGroup (runOrganize exFs exCfg (mkDestJournal []) [exFileA, exFileB])
        (hashOf "AAAA".toList)).filter
      (fun r => r.isDuplicate = false)).length = 1 ∧
    ((hashGroup (runOrganize exFs exCfg (mkDestJournal []) [exFileA, exFileB])
        (hashOf "AAAA".toList)).filter
      (fun r => r.isDuplicate = true)).length =
      (hashGroup (runOrganize exFs exCfg (mkDestJournal [])
        [exFileA, exFileB]) (hashOf "AAAA".toList)).length - 1 := by
  refine ⟨by decide, by decide, by decide, ?_⟩
  exact (claim_C1_dedup_per_hash_group exFs exCfg [] [exFileA, exFileB]
    (hashOf "AAAA".toList) (by decide) (by decide) (by decide)).2.1
    (by decide) (by decide)

/-! ## Claim C2 -/

theorem goJoin_pair_suffix (d s : Str) (hs : s ≠ []) :
    ∃ pre, goJoin [d, s] = pre ++ s := by
  unfold goJoin
  by_cases hd : d = []
  · subst hd
    refine ⟨[], ?_⟩
    simp [hs]
  · refine ⟨d ++ ['/'], ?_⟩
    simp [hd, hs]

set_option maxRecDepth 10000 in
theorem formatSequence_length (n : Nat) (h : n ≤ 999) :
    (formatSequence n).length = 3 := by
  have hd : (Nat.toDigits 10 n).length ≤ 3 := by
    have hall : ∀ m : Nat, m < 1000 → (Nat.toDigits 10 m).length ≤ 3 := by
      decide
    exact hall n (by omega)
  unfold formatSequence padNum
  rw [List.length_append, List.length_replicate]
  omega

/-- For sequence numbers at least 2, `computeDestPath` either has no
configured destination (and returns the empty path) or appends
`_NNN` right before the generated filename's extension. -/
theorem computeDestPath_seq_suffix (cfg : ScannerConfig) (f : MediaFile)
    (dup : Bool) (seq : Nat) (h2 : 2 ≤ seq) :
    computeDestPath cfg f dup seq = [] ∨
    ∃ pre, computeDestPath cfg f dup seq =
      pre ++ '_' :: (formatSequence seq ++
        goExt (f.getNewFilename cfg.scheme cfg.spaceReplacement
          cfg.noOriginalName)) := by
  have hne : (f.getNewFilename cfg.scheme cfg.spaceReplacement
        cfg.noOriginalName).take
        ((f.getNewFilename cfg.scheme cfg.spaceReplacement
          cfg.noOriginalName).length -
          (goExt (f.getNewFilename cfg.scheme cfg.spaceReplacement
            cfg.noOriginalName)).length) ++
      '_' :: (formatSequence seq ++
        goExt (f.getNewFilename cfg.scheme cfg.spaceReplacement
          cfg.noOriginalName)) ≠ [] := by
    intro hcon
    have := List.append_eq_nil.mp hcon
    cases this.2
  have hcont : ∀ d : Str, ∃ pre,
      goJoin [d, (f.getNewFilename cfg.scheme cfg.spaceReplacement
          cfg.noOriginalName).take
          ((f.getNewFilename cfg.scheme cfg.spaceReplacement
            cfg.noOriginalName).length -
            (goExt (f.getNewFilename cfg.scheme cfg.spaceReplacement
              cfg.noOriginalName)).length) ++
        '_' :: (formatSequence seq ++
          goExt (f.getNewFilename cfg.scheme cfg.spaceReplacement
            cfg.noOriginalName))] =
      pre ++ '_' :: (formatSequence seq ++
        goExt (f.getNewFilename cfg.scheme cfg.spaceReplacement
          cfg.noOriginalName)) := by
    intro d
    rcases goJoin_pair_suffix d _ hne with ⟨pre0, hj⟩
    refine ⟨pre0 ++ (f.getNewFilename cfg.scheme cfg.spaceReplacement
      cfg.noOriginalName).take
      ((f.getNewFilename cfg.scheme cfg.spaceReplacement
        cfg.noOriginalName).length -
        (goExt (f.getNewFilename cfg.scheme cfg.spaceReplacement
          cfg.noOriginalName)).length), ?_⟩
    rw [hj, List.append_assoc]
  simp only [computeDestPath]
  by_cases hd : cfg.scheme = "date_first".toList ∧ cfg.destination ≠ []
  · rw [if_pos hd, if_neg (by simp [hd])]
    right
    rw [if_pos (show 1 < seq by omega)]
    exact hcont _
  · rw [if_neg hd]
    by_cases hb : cfg.destinationDirs f.type.str = []
    · rw [if_pos ⟨hd, hb⟩]
      exact Or.inl rfl
    · rw [if_neg (by tauto)]
      right
      rw [if_pos (show 1 < seq by omega)]
      exact hcont _

theorem key_filter_le (J : Journal) (k : Str) (i : Nat) :
    J.filter (fun z => z.timestampKey = k ∧ z.id ≤ i) =
      (keyGroup J k).filter (fun z => z.id ≤ i) := by
  unfold keyGroup
  rw [List.filter_filter]
  apply List.filter_congr
  intro z _
  rw [Bool.eq_iff_iff]
  simp only [decide_eq_true_eq, Bool.and_eq_true]
  tauto

/-- C2 counterexample: two files sharing a grouping key in one run form a
group of size 2, yet the first-discovered member keeps sequence number 0
and an unsequenced destination name, contradicting "every member —
including the first-discovered one — carries a non-zero sequence number
and a 3-digit suffix". -/
theorem claim_C2_counterexample :
    (keyGroup (runOrganize exFs exCfg (mkDestJournal [])
        [exFileA, exFileB]) (mkTsKey exFileA)).length = 2 ∧
    ((keyGroup (runOrganize exFs exCfg (mkDestJournal [])
        [exFileA, exFileB]) (mkTsKey exFileA)).head?.map
      (fun r => r.seqNum)) = some 0 ∧
    ((keyGroup (runOrganize exFs exCfg (mkDestJournal [])
        [exFileA, exFileB]) (mkTsKey exFileA)).head?.map
      (fun r => r.destPath)) =
      some "/dest/jpg/2024/2024-01/2024-01-15/20240115-103000 (a).jpg".toList
    := by decide

/-- C2 (amended): for every grouping key shared by N > 1 records of a run,
the first-discovered member keeps sequence number 0 and the unsequenced
destination name, while every later member carries a sequence number of at
least 2 (its running count at discovery), rendered as a zero-padded
3-digit `_NNN` suffix before the extension of its assigned filename
(whenever a destination directory is configured for it); no retroactive
renaming of the first member happens. -/
theorem claim_C2_sequencing_per_key_group (fs : FS) (cfg : ScannerConfig)
    (entries : List DestFile) (files : List MediaFile) (k : Str)
    (hok : entriesOk fs entries = true) (hfok : filesOk fs files = true)
    (hkne : k ≠ []) :
    (∀ x, (keyGroup (runOrganize fs cfg (mkDestJournal entries) files)
        k).head? = some x →
      x.seqNum = 0 ∧
      x.destPath = computeDestPath cfg (recordToMediaFile x)
        x.isDuplicate 0) ∧
    (∀ a ∈ (keyGroup (runOrganize fs cfg (mkDestJournal entries) files)
        k).tail,
      2 ≤ a.seqNum ∧
      a.destPath = computeDestPath cfg (recordToMediaFile a)
        a.isDuplicate a.seqNum ∧
      (a.seqNum ≤ 999 → (formatSequence a.seqNum).length = 3) ∧
      (a.destPath = [] ∨ ∃ pre, a.destPath =
        pre ++ '_' :: (formatSequence a.seqNum ++
          goExt ((recordToMediaFile a).getNewFilename cfg.scheme
            cfg.spaceReplacement cfg.noOriginalName)))) := by
  have hInv := inv_runOrganize fs cfg (mkDestJournal entries) files
    (inv_mkDestJournal fs cfg entries hok) hfok
  set Jf := runOrganize fs cfg (mkDestJournal entries) files with hJf
  have hKmem : ∀ a ∈ keyGroup Jf k, a ∈ Jf ∧ a.timestampKey = k := by
    intro a ha
    have hm := List.mem_filter.mp (show a ∈ Jf.filter
      (fun r => decide (r.timestampKey = k)) from ha)
    exact ⟨hm.1, by simpa using hm.2⟩
  have hKnd : ∀ a ∈ keyGroup Jf k, a.status ≠ Status.destIndex := by
    intro a ha hst
    obtain ⟨haJ, hak⟩ := hKmem a ha
    have := (hInv.destFlag a haJ hst).2
    rw [this] at hak
    exact hkne hak.symm
  have hpw : (keyGroup Jf k).Pairwise (fun a b => a.id < b.id) :=
    (idsOk_pairwise hInv.ids).filter _
  cases hK : keyGroup Jf k with
  | nil =>
    constructor
    · intro x hx
      simp at hx
    · intro a hat
      simp at hat
  | cons y t =>
    have hymem : y ∈ keyGroup Jf k := by
      rw [hK]
      exact List.mem_cons_self y t
    have hpy : ∀ a ∈ t, y.id < a.id := by
      have := hpw
      rw [hK] at this
      exact (List.pairwise_cons.mp this).1
    have hcnt : ∀ a, a ∈ keyGroup Jf k →
        (Jf.filter (fun z => z.timestampKey = a.timestampKey ∧
          z.id ≤ a.id)).length =
        ((keyGroup Jf k).filter (fun z => z.id ≤ a.id)).length := by
      intro a ha
      obtain ⟨-, hak⟩ := hKmem a ha
      simp only [hak]
      rw [key_filter_le Jf k a.id]
    constructor
    · intro x hx
      have hxy : x = y := by simpa using hx.symm
      subst hxy
      have hxne := hKnd x hymem
      have hchar := hInv.seqChar x (hKmem x hymem).1 hxne
      have hone : ((keyGroup Jf k).filter
          (fun z => z.id ≤ x.id)).length = 1 := by
        rw [hK, List.filter_cons]
        simp only [le_refl, decide_True, if_true]
        have hnil2 : t.filter (fun z => decide (z.id ≤ x.id)) = [] := by
          rw [List.filter_eq_nil_iff]
          intro a hat
          have := hpy a hat
          simp only [decide_eq_true_eq]
          omega
        rw [hnil2]
        rfl
      rw [hcnt x hymem, hone] at hchar
      have hseq0 : x.seqNum = 0 := by
        rw [hchar]
        rfl
      refine ⟨hseq0, ?_⟩
      have hdc := hInv.destChar x (hKmem x hymem).1 hxne
      rw [hseq0] at hdc
      exact hdc
    · intro a hat
      simp only [List.tail_cons] at hat
      have hamem : a ∈ keyGroup Jf k := by
        rw [hK]
        exact List.mem_cons_of_mem y hat
      have hane := hKnd a hamem
      have hchar := hInv.seqChar a (hKmem a hamem).1 hane
      have htwo : 2 ≤ ((keyGroup Jf k).filter
          (fun z => z.id ≤ a.id)).length := by
        rw [hK, List.filter_cons]
        have hyle : (decide (y.id ≤ a.id)) = true := by
          have := hpy a hat
          simp only [decide_eq_true_eq]
          omega
        rw [hyle]
        simp only [if_true, List.length_cons]
        have hamemf : a ∈ t.filter (fun z => decide (z.id ≤ a.id)) :=
          List.mem_filter.mpr ⟨hat, by simp⟩
        have := List.length_pos.mpr (List.ne_nil_of_mem hamemf)
        omega
      rw [hcnt a hamem] at hchar
      have hseq : a.seqNum = ((keyGroup Jf k).filter
          (fun z => z.id ≤ a.id)).length := by
        rw [hchar, if_pos (by omega)]
      have hseq2 : 2 ≤ a.seqNum := by omega
      have hdc := hInv.destChar a (hKmem a hamem).1 hane
      refine ⟨hseq2, hdc, fun hb => formatSequence_length a.seqNum hb, ?_⟩
      rcases computeDestPath_seq_suffix cfg (recordToMediaFile a)
        a.isDuplicate a.seqNum hseq2 with hnil | ⟨pre, hp⟩
      · left
        rw [hdc, hnil]
      · right
        exact ⟨pre, by rw [hdc, hp]⟩

/-- C2 witness: two files sharing a grouping key; the theorem yields
sequence number 0 for the first member and, for the second member, a
sequence number of at least 2 with the 3-digit suffix shape. -/
theorem claim_C2_sequencing_per_key_group_witness :
    entriesOk exFs ([] : List DestFile) = true ∧
    filesOk exFs [exFileA, exFileB] = true ∧
    mkTsKey exFileA ≠ [] ∧
    (∀ x, (keyGroup (runOrganize exFs exCfg (mkDestJournal [])
        [exFileA, exFileB]) (mkTsKey exFileA)).head? = some x →
      x.seqNum = 0 ∧
      x.destPath = computeDestPath exCfg (recordToMediaFile x)
        x.isDuplicate 0) := by
  refine ⟨by decide, by decide, by decide, ?_⟩
  exact (claim_C2_sequencing_per_key_group exFs exCfg [] [exFileA, exFileB]
    (mkTsKey exFileA) (by decide) (by decide) (by decide)).1

/-! ## Structure of `filepath.Ext` and the extension-stripping loop -/

theorem goExtAux_spec (rl : List Char) (hsl : '/' ∉ rl) :
    ∀ acc, goExtAux rl acc =
      (if '.' ∈ rl then
        some ('.' :: ((rl.takeWhile (fun c => c ≠ '.')).reverse ++ acc))
      else none) := by
  induction rl with
  | nil =>
    intro acc
    simp [goExtAux]
  | cons c rest ih =>
    intro acc
    have hc : c ≠ '/' := fun h => hsl (h ▸ List.mem_cons_self c rest)
    have hslr : '/' ∉ rest := fun h => hsl (List.mem_cons_of_mem c h)
    unfold goExtAux
    rw [if_neg hc]
    by_cases hdot : c = '.'
    · subst hdot
      simp
    · rw [if_neg hdot, ih hslr (c :: acc)]
      by_cases hmem : '.' ∈ rest
      · rw [if_pos hmem, if_pos (List.mem_cons_of_mem c hmem)]
        rw [List.takeWhile_cons_of_pos (by simpa using hdot)]
        simp
      · rw [if_neg hmem, if_neg (by
          intro hm
          rcases List.mem_cons.mp hm with h1 | h1
          · exact hdot h1.symm
          · exact hmem h1)]

theorem goExt_no_dot (name : Str) (hsl : '/' ∉ name) (hdot : '.' ∉ name) :
    goExt name = [] := by
  unfold goExt
  rw [goExtAux_spec name.reverse (by simpa using hsl) [],
    if_neg (by simpa using hdot)]

theorem dropWhile_head_false {α : Type} (p : α → Bool) :
    ∀ (l : List α) (x : α) (xs : List α), l.dropWhile p = x :: xs →
      p x = false := by
  intro l
  induction l with
  | nil => intro x xs h; cases h
  | cons a t ih =>
    intro x xs h
    rw [List.dropWhile_cons] at h
    by_cases hpa : p a = true
    · rw [if_pos hpa] at h
      exact ih x xs h
    · rw [if_neg hpa] at h
      cases h
      simpa using hpa

/-- Splitting a slash-free, dot-containing name at its final dot:
`filepath.Ext` is the final-dot suffix and `TrimSuffix` removes it. -/
theorem goExt_split (name : Str) (hsl : '/' ∉ name) (hdot : '.' ∈ name) :
    ∃ pre post, name = pre ++ '.' :: post ∧ goExt name = '.' :: post ∧
      '.' ∉ post ∧ goTrimSuffix name (goExt name) = pre := by
  have hsplit := (List.takeWhile_append_dropWhile
    (p := fun c => decide (c ≠ '.')) (l := name.reverse)).symm
  have hdr : '.' ∈ name.reverse := by simpa using hdot
  cases hdw : name.reverse.dropWhile (fun c => decide (c ≠ '.')) with
  | nil =>
    exfalso
    rw [hdw, List.append_nil] at hsplit
    have : ('.' : Char) ∈ name.reverse.takeWhile (fun c => decide (c ≠ '.')) := by
      rw [← hsplit]
      exact hdr
    have := List.mem_takeWhile_imp this
    simp at this
  | cons x xs =>
    have hx : x = '.' := by
      have := dropWhile_head_false _ _ _ _ hdw
      simpa using this
    subst hx
    rw [hdw] at hsplit
    set tw := name.reverse.takeWhile (fun c => decide (c ≠ '.')) with htw
    have hname : name = xs.reverse ++ '.' :: tw.reverse := by
      have h1 : name.reverse.reverse = (tw ++ '.' :: xs).reverse := by
        rw [← hsplit]
      rw [List.reverse_reverse] at h1
      rw [h1, List.reverse_append, List.reverse_cons, List.append_assoc]
      simp
    have hpost : '.' ∉ tw.reverse := by
      intro hm
      have := List.mem_takeWhile_imp (by simpa using hm : ('.':Char) ∈ tw)
      simp at this
    have hext : goExt name = '.' :: tw.reverse := by
      unfold goExt
      rw [goExtAux_spec name.reverse (by simpa using hsl) [], if_pos hdr]
      rw [← htw, List.append_nil]
    refine ⟨xs.reverse, tw.reverse, hname, hext, hpost, ?_⟩
    rw [hext]
    unfold goTrimSuffix
    rw [if_pos ?side]
    case side =>
      rw [hname]
      exact List.isSuffixOf_iff_suffix.mpr ⟨xs.reverse, rfl⟩
    rw [hname]
    have hlen : (xs.reverse ++ '.' :: tw.reverse).length -
        ('.' :: tw.reverse).length = xs.reverse.length := by
      rw [List.length_append]
      simp
    rw [hlen, List.take_left]

theorem takeWhile_append_cons {α : Type} (p : α → Bool) (c : α)
    (hc : p c = false) :
    ∀ (pre rest : List α),
      (pre ++ c :: rest).takeWhile p = pre.takeWhile p := by
  intro pre
  induction pre with
  | nil =>
    intro rest
    simp [List.takeWhile_cons, hc]
  | cons a t ih =>
    intro rest
    rw [List.cons_append, List.takeWhile_cons, List.takeWhile_cons]
    by_cases hpa : p a = true
    · rw [if_pos hpa, if_pos hpa, ih rest]
    · rw [if_neg hpa, if_neg hpa]

theorem takeWhile_of_all {α : Type} (p : α → Bool) :
    ∀ (l : List α), (∀ x ∈ l, p x = true) → l.takeWhile p = l := by
  intro l
  induction l with
  | nil => intro _; rfl
  | cons a t ih =>
    intro h
    rw [List.takeWhile_cons, if_pos (h a (List.mem_cons_self a t)),
      ih (fun x hx => h x (List.mem_cons_of_mem a hx))]

theorem stripExtensionsAux_takeWhile :
    ∀ (fuel : Nat) (name : Str), '/' ∉ name → name.length ≤ fuel →
      stripExtensionsAux fuel name = name.takeWhile (fun c => c ≠ '.') := by
  intro fuel
  induction fuel with
  | zero =>
    intro name _ hlen
    have : name = [] := List.eq_nil_of_length_eq_zero (by omega)
    subst this
    rfl
  | succ fuel ih =>
    intro name hsl hlen
    unfold stripExtensionsAux
    by_cases hdot : '.' ∈ name
    · rcases goExt_split name hsl hdot with ⟨pre, post, hname, hext, -, htrim⟩
      rw [if_neg (by rw [hext]; exact List.cons_ne_nil _ _), htrim]
      have hprelen : pre.length < name.length := by
        rw [hname, List.length_append]
        simp
      rw [if_pos hprelen]
      have hslpre : '/' ∉ pre := fun hm =>
        hsl (hname ▸ List.mem_append.mpr (Or.inl hm))
      rw [ih pre hslpre (by omega), hname,
        takeWhile_append_cons _ '.' (by simp) pre post]
    · rw [if_pos (goExt_no_dot name hsl hdot)]
      rw [takeWhile_of_all _ name (fun x hx => by
        simp only [decide_eq_true_eq]
        intro hxe
        exact hdot (hxe ▸ hx))]

/-! ## Claim C10 -/

/-- C10: the extension-stripping loop of `GetNewFilename` removes every
trailing dot-suffix: on any (slash-free) original name it retains exactly
the leading segment before the first dot. -/
theorem claim_C10_strip_all_extensions (name : Str) (hsl : '/' ∉ name) :
    stripExtensions name = name.takeWhile (fun c => c ≠ '.') := by
  unfold stripExtensions
  exact stripExtensionsAux_takeWhile name.length name hsl le_rfl

/-- C10 witness: `photo.backup.jpg` retains only `photo`, and inside
`GetNewFilename` the multi-suffix original name appears as `(photo)`. -/
theorem claim_C10_strip_all_extensions_witness :
    ('/' ∉ "photo.backup.jpg".toList) ∧
    stripExtensions "photo.backup.jpg".toList =
      ("photo.backup.jpg".toList).takeWhile (fun c => c ≠ '.') ∧
    stripExtensions "photo.backup.jpg".toList = "photo".toList := by
  refine ⟨by decide, claim_C10_strip_all_extensions
    "photo.backup.jpg".toList (by decide), by decide⟩

/-! ## Claim C9 -/

/-- C9: for every `MediaFile` and every scheme and configuration, the
filename produced by `GetNewFilename` ends with the lowercased form of the
source path's extension. -/
theorem claim_C9_lowercase_extension_suffix (m : MediaFile)
    (scheme spaceReplacement : Str) (noOriginalName : Bool) :
    List.IsSuffix (goToLower (goExt m.sourcePath))
      (m.getNewFilename scheme spaceReplacement noOriginalName) := by
  unfold MediaFile.getNewFilename
  by_cases hs : scheme = "date_first".toList
  · rw [if_pos hs]
    exact ⟨_, rfl⟩
  · rw [if_neg hs]
    exact ⟨_, rfl⟩

/-! ## Claim C6 -/

theorem padNum_ne_nil (w n : Nat) (hw : 0 < w) : padNum w n ≠ [] := by
  unfold padNum
  intro h
  have hn := List.append_eq_nil.mp h
  have h1 := congrArg List.length hn.1
  have h2 := congrArg List.length hn.2
  simp only [List.length_replicate, List.length_nil] at h1 h2
  omega

theorem goJoin_three (a b c : Str) (ha : a ≠ []) (hb : b ≠ [])
    (hc : c ≠ []) : goJoin [a, b, c] = a ++ '/' :: (b ++ '/' :: c) := by
  unfold goJoin
  rw [show ([a, b, c].filter (· ≠ [])) = [a, b, c] from by
    simp [ha, hb, hc]]
  show (a ++ '/' :: b) ++ '/' :: c = _
  rw [List.append_assoc]
  rfl

/-- C6: under the extension-first scheme with no extension override and no
duplicate flag, the assigned directory is
`<base>/<ext>/<YYYY>/<YYYY-MM>/<YYYY-MM-DD>` and the filename is the
timestamp, an underscore-dimension suffix when a dimension is present, the
original name in parentheses, then the extension; in particular the
specification's `IMG_1.jpg` example yields
`20240115-103000_4000 (IMG_1).jpg`. -/
theorem claim_C6_extension_first_layout :
    (∀ (m : MediaFile) (baseDir duplicatesDir : Str), baseDir ≠ [] →
      m.getExtension ≠ [] →
      m.getDestinationPath baseDir [] false "extension_first".toList
          duplicatesDir =
        baseDir ++ '/' :: (m.getExtension ++ '/' ::
          (m.creationTime.fmtYear ++ '/' ::
            ((m.creationTime.fmtYear ++ ('-' :: m.creationTime.fmtMonth)) ++
              '/' :: ((m.creationTime.fmtYear ++
                ('-' :: m.creationTime.fmtMonth)) ++
                ('-' :: m.creationTime.fmtDay)))))) ∧
    (∀ (m : MediaFile) (sp : Str), 0 < m.largerDimension → sp ≠ [] →
      sp ≠ [' '] →
      goReplaceSpaces (stripExtensions m.originalName) sp ≠ [] →
      (m.creationTime.fmtStamp).isPrefixOf
        (goReplaceSpaces (stripExtensions m.originalName) sp) = false →
      m.getNewFilename "extension_first".toList sp false =
        ((m.creationTime.fmtStamp ++
          ('_' :: Nat.toDigits 10 m.largerDimension)) ++
          (' ' :: '(' :: (goReplaceSpaces (stripExtensions m.originalName) sp
            ++ [')']))) ++ goToLower (goExt m.sourcePath)) ∧
    exImg.getNewFilename "extension_first".toList "_".toList false =
      "20240115-103000_4000 (IMG_1).jpg".toList := by
  refine ⟨?_, ?_, by decide⟩
  · intro m baseDir duplicatesDir hb he
    unfold MediaFile.getDestinationPath
    rw [if_neg (by simp), if_neg (by decide)]
    simp only [Bool.false_eq_true, false_and, if_false, if_neg
      (by simp : ¬ (false = true ∧ goIsAbs duplicatesDir = true))]
    have hds : dateStructure m.creationTime =
        m.creationTime.fmtYear ++ '/' ::
          ((m.creationTime.fmtYear ++ ('-' :: m.creationTime.fmtMonth)) ++
            '/' :: ((m.creationTime.fmtYear ++
              ('-' :: m.creationTime.fmtMonth)) ++
              ('-' :: m.creationTime.fmtDay))) := by
      unfold dateStructure
      apply goJoin_three
      · exact padNum_ne_nil 4 _ (by omega)
      · intro hcon
        exact padNum_ne_nil 4 _ (by omega) (List.append_eq_nil.mp hcon).1
      · intro hcon
        exact padNum_ne_nil 4 _ (by omega)
          (List.append_eq_nil.mp (List.append_eq_nil.mp hcon).1).1
    rw [← hds]
    apply goJoin_three baseDir m.getExtension (dateStructure m.creationTime)
      hb he
    rw [hds]
    intro hcon
    exact padNum_ne_nil 4 _ (by omega) (List.append_eq_nil.mp hcon).1
  · intro m sp hdim hsp1 hsp2 horig hpre
    unfold MediaFile.getNewFilename
    rw [if_neg (by decide)]
    simp only [Bool.false_eq_true, if_false, if_pos (And.intro hsp1 hsp2),
      if_pos hdim]
    rw [if_pos (And.intro horig (by simp [hpre]))]

/-- C6 witness: the directory and filename equalities instantiated at the
specification's example image. -/
theorem claim_C6_extension_first_layout_witness :
    ("/dest/images".toList ≠ ([] : Str)) ∧
    exImg.getExtension ≠ [] ∧
    exImg.getDestinationPath "/dest/images".toList [] false
        "extension_first".toList "duplicates".toList =
      "/dest/images".toList ++ '/' :: (exImg.getExtension ++ '/' ::
        (exImg.creationTime.fmtYear ++ '/' ::
          ((exImg.creationTime.fmtYear ++
            ('-' :: exImg.creationTime.fmtMonth)) ++
            '/' :: ((exImg.creationTime.fmtYear ++
              ('-' :: exImg.creationTime.fmtMonth)) ++
              ('-' :: exImg.creationTime.fmtDay))))) := by
  refine ⟨by decide, by decide, ?_⟩
  exact (claim_C6_extension_first_layout).1 exImg "/dest/images".toList
    "duplicates".toList (by decide) (by decide)

/-- C7 counterexample: a symbolic link whose name carries a media
extension is emitted by the walk filter — the callback never consults the
symlink flag — refuting "skips symbolic links". -/
theorem claim_C7_counterexample :
    walkEmits (fun _ => false)
      ⟨"/s/link.jpg".toList, false, true⟩ = true := by decide

/-- C7 (amended): the walk stage emits exactly the non-directory entries
whose names are recognized media types, are not `._` artifacts, are not
the journal's own database files, and (in resume mode) are not already
completed; the decision ignores whether the entry is a symbolic link, so
symlink file entries are not filtered (the walker merely does not descend
into symlinked directories). -/
theorem claim_C7_walk_filter (completed : Str → Bool) (e : WalkEntry) :
    (walkEmits completed e = true ↔
      (e.isDir = false ∧
       ¬ ("._".toList <+: goBase e.path) ∧
       ¬ (".mediaorganizer.db".toList <:+ e.path ∨
          ".mediaorganizer.db-wal".toList <:+ e.path ∨
          ".mediaorganizer.db-shm".toList <:+ e.path) ∧
       determineMediaType e.path ≠ .unknown ∧
       completed e.path = false)) ∧
    (∀ b : Bool, walkEmits completed { e with isSymlink := b } =
      walkEmits completed e) := by
  constructor
  · unfold walkEmits
    by_cases h1 : e.isDir = true
    · simp [h1]
    · rw [Bool.not_eq_true] at h1
      by_cases h2 : ("._".toList <+: goBase e.path)
      · simp [h1, h2, List.isPrefixOf_iff_prefix]
      · by_cases h3 : (".mediaorganizer.db".toList <:+ e.path ∨
            ".mediaorganizer.db-wal".toList <:+ e.path ∨
            ".mediaorganizer.db-shm".toList <:+ e.path)
        · simp [h1, h2, h3, List.isPrefixOf_iff_prefix,
            List.isSuffixOf_iff_suffix]
        · by_cases h4 : determineMediaType e.path = .unknown
          · simp [h1, h2, h3, h4, List.isPrefixOf_iff_prefix,
              List.isSuffixOf_iff_suffix]
          · by_cases h5 : completed e.path = true
            · simp [h1, h2, h3, h4, h5, List.isPrefixOf_iff_prefix,
                List.isSuffixOf_iff_suffix]
            · rw [Bool.not_eq_true] at h5
              simp [h1, h2, h3, h4, h5, List.isPrefixOf_iff_prefix,
                List.isSuffixOf_iff_suffix]
  · intro b
    rfl

/-- C3 counterexample: with a file already present at the computed
destination, the move-mode transfer does NOT fail — the record is marked
`completed` — and the pre-existing destination file is silently replaced
by the source's content, refuting "the transfer fails and the existing
destination file is never overwritten". -/
theorem claim_C3_counterexample :
    ((executeMoveJob ⟨false, false⟩ exFs3 9 exJournal3 exJob).1.map
      (fun r => r.status)) = [Status.completed] ∧
    (executeMoveJob ⟨false, false⟩ exFs3 9 exJournal3 exJob).2
      "/dest/old.jpg".toList = some ⟨"AAAA".toList, 420, 5⟩ ∧
    exFs3 "/dest/old.jpg".toList = some ⟨"OLD".toList, 400, 1⟩ := by decide

/-- C3 (amended): the transfer stage performs NO pre-existence check at
the destination: whenever the source is readable, both move and copy
succeed regardless of any file already at the destination — the
destination is overwritten (replaced by the source's data on move,
rewritten with the source's bytes and mode and the current time on copy)
and the record is marked `completed`; a record is marked `failed` with the
error captured only when the underlying operation itself fails (e.g. the
source is unreadable). -/
theorem claim_C3_no_collision_check (fs : FS2) (now : Nat) (J : Journal)
    (job : MoveJob) (d : FileData)
    (hsrc : fs job.file.sourcePath = some d) :
    ((executeMoveJob ⟨false, false⟩ fs now J job).1 =
        updateStatus J job.recordID .completed [] ∧
      (executeMoveJob ⟨false, false⟩ fs now J job).2 job.destPath =
        some d) ∧
    ((executeMoveJob ⟨false, true⟩ fs now J job).1 =
        updateStatus J job.recordID .completed [] ∧
      (executeMoveJob ⟨false, true⟩ fs now J job).2 job.destPath =
        some ⟨d.data, d.mode, now⟩) := by
  constructor
  · simp [executeMoveJob, moveFileImpl, hsrc, fsWrite]
  · simp [executeMoveJob, copyFileImpl, hsrc, fsWrite]

/-- C3 witness: the collision scenario run through the amended theorem —
the destination is overwritten and the record completed. -/
theorem claim_C3_no_collision_check_witness :
    exFs3 exJob.file.sourcePath = some ⟨"AAAA".toList, 420, 5⟩ ∧
    (executeMoveJob ⟨false, false⟩ exFs3 9 exJournal3 exJob).1 =
      updateStatus exJournal3 exJob.recordID .completed [] ∧
    (executeMoveJob ⟨false, false⟩ exFs3 9 exJournal3 exJob).2
      exJob.destPath = some ⟨"AAAA".toList, 420, 5⟩ := by
  refine ⟨by decide, ?_⟩
  exact (claim_C3_no_collision_check exFs3 9 exJournal3 exJob
    ⟨"AAAA".toList, 420, 5⟩ (by decide)).1

/-- C8 counterexample: after a copy-mode transfer the destination's
modification time is the time of the copy (9), not the source's original
modification time (5): `copyFileImpl` never calls anything that would
restore the source timestamp, refuting "the destination file's
modification timestamp equals the source file's original modification
timestamp".  (No byte-count verification exists either: the code ignores
`io.Copy`'s byte count.) -/
theorem claim_C8_counterexample :
    ((executeMoveJob ⟨false, true⟩ exFs8 9 exJournal3 exJob).2
      "/dest/old.jpg".toList).map (fun d => d.mtime) = some 9 ∧
    (exFs8 "/s/a.jpg".toList).map (fun d => d.mtime) = some 5 := by decide

/-- C8 (amended): after a copy-mode transfer of a readable source, the
destination holds exactly the source's bytes (hence an equal byte count)
and the source's permission mode, but its modification time is the time
of the copy rather than the source's; the record reaches the terminal
status `completed`.  When the source cannot be read, the record reaches
the terminal status `failed` with the error captured as the message. -/
theorem claim_C8_copy_no_mtime_preservation (fs : FS2) (now : Nat)
    (J : Journal) (job : MoveJob) :
    (∀ d : FileData, fs job.file.sourcePath = some d →
      (executeMoveJob ⟨false, true⟩ fs now J job).2 job.destPath =
        some ⟨d.data, d.mode, now⟩ ∧
      (executeMoveJob ⟨false, true⟩ fs now J job).1 =
        updateStatus J job.recordID .completed []) ∧
    (fs job.file.sourcePath = none →
      (executeMoveJob ⟨false, true⟩ fs now J job).1 =
        updateStatus J job.recordID .failed
          ("open ".toList ++ job.file.sourcePath)) := by
  constructor
  · intro d hsrc
    simp [executeMoveJob, copyFileImpl, hsrc, fsWrite]
  · intro hsrc
    simp [executeMoveJob, copyFileImpl, hsrc]

/-! ## Claim C4 -/

/-- C4: one organize-stage step on a readable new file: the journal grows
by one record; the new record carries a non-empty hash IF AND ONLY IF at
least 2 journal records (the new one included) share its file size; when
that trigger does not fire every earlier record is untouched; when it
fires, each earlier unhashed same-size record is backfilled with the hash
of the file at its source path — or at its recorded destination path when
the source no longer exists and a destination is recorded
(`fallbackPath`) — while a backfill candidate whose file cannot be read is
skipped, its record left fully unchanged (no failure); earlier records
that are already hashed or of another size are untouched. -/
theorem claim_C4_lazy_hash_backfill (fs : FS) (cfg : ScannerConfig)
    (J : Journal) (f : MediaFile) (c : Str) (hids : IdsOk J)
    (hex : J.any (fun x =>
      x.status ≠ Status.destIndex ∧ x.sourcePath = f.sourcePath) = false)
    (hread : fs f.sourcePath = some c) :
    (processOne fs cfg J f).1.length = J.length + 1 ∧
    (∀ r2, (processOne fs cfg J f).1[J.length]? = some r2 →
      (r2.hash ≠ [] ↔
        2 ≤ countByFileSize (processOne fs cfg J f).1 f.fileSize)) ∧
    (∀ (i : Nat) (r : FileRecord), J[i]? = some r →
      (countByFileSize (processOne fs cfg J f).1 f.fileSize < 2 →
        (processOne fs cfg J f).1[i]? = some r) ∧
      (2 ≤ countByFileSize (processOne fs cfg J f).1 f.fileSize →
        ((r.fileSize = f.fileSize ∧ r.hash = []) →
          (∀ cr, fs (fallbackPath fs r) = some cr →
            (processOne fs cfg J f).1[i]? =
              some { r with hash := hashOf cr }) ∧
          (fs (fallbackPath fs r) = none →
            (processOne fs cfg J f).1[i]? = some r)) ∧
        (¬ (r.fileSize = f.fileSize ∧ r.hash = []) →
          (processOne fs cfg J f).1[i]? = some r))) := by
  by_cases hn : (J.filter (fun r => r.fileSize = f.fileSize)).length = 0
  · have hq := processOne_quiet fs cfg J f hids hex hn
    have h1 : (processOne fs cfg J f).1 =
        J ++ [newRecord f J.length []
          (computeDestPath cfg f false (seqOf J f)) (seqOf J f) false] := by
      rw [hq]
    have hcnt : countByFileSize (processOne fs cfg J f).1 f.fileSize = 1 := by
      rw [h1]
      unfold countByFileSize
      rw [List.filter_append]
      simp [hn, newRecord]
    refine ⟨by rw [h1]; simp, ?_, ?_⟩
    · intro r2 hr2
      rw [h1, List.getElem?_append_right (le_refl J.length)] at hr2
      simp only [Nat.sub_self, List.getElem?_cons_zero,
        Option.some.injEq] at hr2
      rw [← hr2, hcnt]
      simp [newRecord]
    · intro i r hir
      have hilt : i < J.length := by
        by_contra hge
        rw [List.getElem?_eq_none (by omega)] at hir
        exact Option.noConfusion hir
      have h2 : (processOne fs cfg J f).1[i]? = some r := by
        rw [h1, List.getElem?_append_left hilt]
        exact hir
      exact ⟨fun _ => h2, fun hge2 => absurd hge2 (by rw [hcnt]; omega)⟩
  · have hn' : 0 < (J.filter (fun r => r.fileSize = f.fileSize)).length :=
      Nat.pos_of_ne_zero hn
    have ht := processOne_trigger fs cfg J f c hids hex hread hn'
    have h1 : (processOne fs cfg J f).1 =
        backfilled fs f.fileSize J ++
          [newRecord f J.length (hashOf c)
            (computeDestPath cfg f (dupAny fs J f c) (seqOf J f))
            (seqOf J f) (dupAny fs J f c)] := by
      rw [ht]
    have hlen : (backfilled fs f.fileSize J).length = J.length := by
      unfold backfilled
      simp
    have hfilt : ((backfilled fs f.fileSize J).filter
        (fun r => decide (r.fileSize = f.fileSize))).length =
        (J.filter (fun r => decide (r.fileSize = f.fileSize))).length := by
      apply backfilled_filter_length
      intro x hx
      rcases bfMap_shape fs f.fileSize x with ⟨h', he⟩
      rw [he]
    have hcnt : countByFileSize (processOne fs cfg J f).1 f.fileSize =
        (J.filter (fun r => r.fileSize = f.fileSize)).length + 1 := by
      rw [h1]
      unfold countByFileSize
      rw [List.filter_append, List.length_append, hfilt]
      simp [newRecord]
    have hge2 : 2 ≤ countByFileSize (processOne fs cfg J f).1 f.fileSize := by
      rw [hcnt]
      omega
    refine ⟨by rw [h1]; simp [hlen], ?_, ?_⟩
    · intro r2 hr2
      have hnr : (backfilled fs f.fileSize J ++
          [newRecord f J.length (hashOf c)
            (computeDestPath cfg f (dupAny fs J f c) (seqOf J f))
            (seqOf J f) (dupAny fs J f c)])[J.length]? =
          some (newRecord f J.length (hashOf c)
            (computeDestPath cfg f (dupAny fs J f c) (seqOf J f))
            (seqOf J f) (dupAny fs J f c)) := by
        rw [List.getElem?_append_right (le_of_eq hlen)]
        simp [hlen]
      rw [h1, hnr] at hr2
      simp only [Option.some.injEq] at hr2
      rw [← hr2]
      exact iff_of_true (by simp [newRecord, hashOf]) hge2
    · intro i r hir
      have hilt : i < J.length := by
        by_contra hge
        rw [List.getElem?_eq_none (by omega)] at hir
        exact Option.noConfusion hir
      have hbi : (processOne fs cfg J f).1[i]? =
          some (bfMap fs f.fileSize r) := by
        rw [h1, List.getElem?_append_left (by rw [hlen]; exact hilt)]
        unfold backfilled
        rw [List.getElem?_map, hir]
        rfl
      refine ⟨fun hlt => absurd hge2 (by omega), fun _ => ⟨?_, ?_⟩⟩
      · intro hc
        constructor
        · intro cr hcr
          rw [hbi]
          unfold bfMap
          rw [if_pos hc]
          unfold bfApply computeFileHash
          rw [hcr]
          rfl
        · intro hnone
          rw [hbi]
          unfold bfMap
          rw [if_pos hc]
          unfold bfApply computeFileHash
          rw [hnone]
          rfl
      · intro hc
        rw [hbi]
        unfold bfMap
        rw [if_neg hc]

/-- C4 witness: a journal holding one pre-indexed destination record of
the same size as the incoming readable file triggers the lazy hash — the
run grows the journal to two records. -/
theorem claim_C4_lazy_hash_backfill_witness :
    (IdsOk [destRecord exDest1 0] ∧
     [destRecord exDest1 0].any (fun x =>
       x.status ≠ Status.destIndex ∧
         x.sourcePath = exFileB.sourcePath) = false ∧
     exFs exFileB.sourcePath = some "AAAA".toList) ∧
    (processOne exFs exCfg [destRecord exDest1 0] exFileB).1.length =
      [destRecord exDest1 0].length + 1 := by
  have hids : IdsOk [destRecord exDest1 0] := by
    intro i r h
    cases i with
    | zero =>
        simp only [List.getElem?_cons_zero, Option.some.injEq] at h
        rw [← h]
        rfl
    | succ n => simp at h
  refine ⟨⟨hids, by decide, by decide⟩, ?_⟩
  exact (claim_C4_lazy_hash_backfill exFs exCfg [destRecord exDest1 0]
    exFileB "AAAA".toList hids (by decide) (by decide)).1

/-- C5: on resume, for every re-queued `pending`-with-destination record:
a record whose source still exists is re-queued directly into the
transfer stage with its stored destination and duplicate flag (the
journal — hence dedup state and assigned path — untouched); a record
whose source is missing is marked `completed` when its stored destination
path exists on disk, and `failed` when both are missing. -/
theorem claim_C5_resume_requeue (ex : Str → Bool) (J : Journal)
    (rec : FileRecord) (hmem : rec ∈ getPendingFiles J) :
    (ex rec.sourcePath = true →
      requeueOne ex J rec =
        (J, some { recordID := rec.id, file := recordToMediaFile rec,
                   destPath := rec.destPath,
                   isDuplicate := rec.isDuplicate })) ∧
    (ex rec.sourcePath = false → ex rec.destPath = true →
      requeueOne ex J rec = (updateStatus J rec.id .completed [], none)) ∧
    (ex rec.sourcePath = false → ex rec.destPath = false →
      requeueOne ex J rec =
        (updateStatus J rec.id .failed
          "source file missing on resume".toList, none)) := by
  have hdp : rec.destPath ≠ [] := by
    simp only [getPendingFiles, List.mem_filter, decide_eq_true_eq] at hmem
    exact hmem.2.2
  refine ⟨fun hs => ?_, fun hs hd => ?_, fun hs hd => ?_⟩
  · simp [requeueOne, hs]
  · simp [requeueOne, hs, hd, hdp]
  · simp [requeueOne, hs, hd]

/-- C5 witness: a concrete pending record with destination whose source
exists is re-queued unchanged. -/
theorem claim_C5_resume_requeue_witness :
    exRec5 ∈ getPendingFiles exJournal5 ∧
    requeueOne exEx5 exJournal5 exRec5 =
      (exJournal5, some { recordID := exRec5.id,
                          file := recordToMediaFile exRec5,
                          destPath := exRec5.destPath,
                          isDuplicate := exRec5.isDuplicate }) := by
  refine ⟨by decide, ?_⟩
  exact (claim_C5_resume_requeue exEx5 exJournal5 exRec5 (by decide)).1
    (by decide)

/-- C8 witness: the copy scenario run through the amended theorem. -/
theorem claim_C8_copy_no_mtime_preservation_witness :
    exFs8 exJob.file.sourcePath = some ⟨"AAAA".toList, 420, 5⟩ ∧
    (executeMoveJob ⟨false, true⟩ exFs8 9 exJournal3 exJob).2
      exJob.destPath = some ⟨"AAAA".toList, 420, 9⟩ ∧
    (executeMoveJob ⟨false, true⟩ exFs8 9 exJournal3 exJob).1 =
      updateStatus exJournal3 exJob.recordID .completed [] := by
  refine ⟨by decide, ?_⟩
  exact (claim_C8_copy_no_mtime_preservation exFs8 9 exJournal3 exJob).1
    ⟨"AAAA".toList, 420, 5⟩ (by decide)

end MediaOrganizer
